import Mathlib

/-!
Shallow embedding of the `@dwbinns/jwt` package (src/jwt.js): token codec,
verification engine, issuance engine, key-import adapters and the
expiry-fraction utility, together with proofs checking the package's
natural-language specification against this embedding.

Modelling conventions:
* Text is `List Char`; bytes are `List Nat` (each `< 256` where it matters).
* JavaScript exceptions are modelled by `Except JwtError`.
* Platform JSON (`JSON.stringify` / `JSON.parse`) is modelled by a compact
  serializer and parser over a JSON fragment: integer numbers, and strings
  of ASCII characters that need no escaping.  JSON values are a mutual
  inductive family (value / element list / field list) so that every
  function over them is structurally recursive and kernel-reducible.
* `TextEncoder` / UTF-8 text decoding is modelled on the ASCII fragment
  (`Char.toNat` per character), which covers every byte the token format
  itself produces.
* WebCrypto (`crypto.subtle`) is an abstract `SubtleCrypto` structure of
  functions: theorems about signatures take the crypto subsystem as a
  parameter, and the signing/verification handles are opaque `Nat` tags.
-/

set_option maxRecDepth 100000

/-- Text modelled as a list of characters. -/
abbrev Str := List Char

/-! ### JSON values -/

mutual

/-- JSON fragment used by the token codec: integer numbers, strings,
booleans, null, arrays and objects (field order preserved, matching the
serialization order of `JSON.stringify`). -/
inductive Json where
  | null : Json
  | bool (b : Bool) : Json
  | num (n : Int) : Json
  | str (s : Str) : Json
  | arr (xs : JList) : Json
  | obj (fields : JFields) : Json

/-- Elements of a JSON array. -/
inductive JList where
  | nil : JList
  | cons (x : Json) (xs : JList) : JList

/-- Fields of a JSON object, in insertion order. -/
inductive JFields where
  | nil : JFields
  | cons (k : Str) (v : Json) (fs : JFields) : JFields

end

/-- Build a JSON array from a Lean list. -/
def JList.ofList : List Json → JList
  | [] => .nil
  | x :: xs => .cons x (JList.ofList xs)

/-- Build JSON object fields from a Lean association list. -/
def JFields.ofList : List (Str × Json) → JFields
  | [] => .nil
  | (k, v) :: fs => .cons k v (JFields.ofList fs)

/-- The elements of a JSON array, as a Lean list. -/
def JList.toList : JList → List Json
  | .nil => []
  | .cons x xs => x :: xs.toList

/-- First field with the given name, if any. -/
def JFields.lookupF : JFields → Str → Option Json
  | .nil, _ => none
  | .cons k v fs, key => if k = key then some v else fs.lookupF key

/-- Number of fields. -/
def JFields.lengthF : JFields → Nat
  | .nil => 0
  | .cons _ _ fs => 1 + fs.lengthF

/-- Field lookup on a JSON object, `none` elsewhere: models `value.field`
access on a parsed JSON value, which yields `undefined` when absent. -/
def Json.get (j : Json) (key : Str) : Option Json :=
  match j with
  | .obj fields => fields.lookupF key
  | _ => none

/-- JavaScript truthiness of a JSON value: `0`, `""`, `false` and `null`
are falsy; every other value (objects and arrays included) is truthy. -/
def Json.truthy : Json → Bool
  | .null => false
  | .bool b => b
  | .num n => n ≠ 0
  | .str s => ¬ s.isEmpty
  | .arr _ => true
  | .obj _ => true

/-- Truthiness of a possibly-absent value: `undefined` is falsy. -/
def Json.truthyOpt : Option Json → Bool
  | none => false
  | some j => j.truthy

/-- Numeric value of a possibly-absent JSON value, when it is a number. -/
def Json.asNum : Option Json → Option Int
  | some (.num n) => some n
  | _ => none

/-! ### Decimal digits -/

/-- The decimal digit characters. -/
def digitChar : Nat → Char
  | 0 => '0' | 1 => '1' | 2 => '2' | 3 => '3' | 4 => '4'
  | 5 => '5' | 6 => '6' | 7 => '7' | 8 => '8' | _ => '9'

/-- Decimal digits of `n`, most significant first, by fuelled division. -/
def natCharsAux : Nat → Nat → Str
  | 0, _ => []
  | fuel + 1, n =>
    if n < 10 then [digitChar n]
    else natCharsAux fuel (n / 10) ++ [digitChar (n % 10)]

/-- Decimal representation of a natural number. -/
def natChars (n : Nat) : Str := natCharsAux (n + 1) n

/-- Decimal representation of an integer (minus sign for negatives),
matching how `JSON.stringify` prints integral numbers. -/
def intChars (n : Int) : Str :=
  if n < 0 then '-' :: natChars n.natAbs else natChars n.toNat

/-- Numeric value of a list of decimal digit characters. -/
def digitsVal (ds : Str) : Nat :=
  ds.foldl (fun acc c => 10 * acc + (c.toNat - 48)) 0

/-! ### JSON serialization (models `JSON.stringify` on the fragment) -/

mutual

/-- Compact JSON serialization, modelling `JSON.stringify` (no spaces,
insertion order preserved). -/
def Json.stringify : Json → Str
  | .null => "null".data
  | .bool true => "true".data
  | .bool false => "false".data
  | .num n => intChars n
  | .str s => '"' :: s ++ ['"']
  | .arr xs => '[' :: xs.strElems ++ [']']
  | .obj fs => '\x7b' :: fs.strFields ++ ['\x7d']

/-- Comma-separated serialization of array elements. -/
def JList.strElems : JList → Str
  | .nil => []
  | .cons x .nil => x.stringify
  | .cons x (.cons y ys) => x.stringify ++ ',' :: JList.strElems (.cons y ys)

/-- Comma-separated serialization of object fields. -/
def JFields.strFields : JFields → Str
  | .nil => []
  | .cons k v .nil => '"' :: k ++ '"' :: ':' :: v.stringify
  | .cons k v (.cons k2 v2 fs) =>
      ('"' :: k ++ '"' :: ':' :: v.stringify) ++ ',' :: JFields.strFields (.cons k2 v2 fs)

end

/-! ### JSON well-formedness and parser measure -/

/-- An ASCII character (single byte under UTF-8). -/
def asciiChar (c : Char) : Bool := c.toNat < 128

/-- Characters representable in the modelled JSON-string fragment:
ASCII, no quote, no backslash (so no escaping is ever needed). -/
def wfChar (c : Char) : Bool := c.toNat < 128 && c ≠ '"' && c ≠ '\\'

mutual

/-- A JSON value lies in the modelled fragment (all strings clean). -/
def Json.wf : Json → Bool
  | .null => true
  | .bool _ => true
  | .num _ => true
  | .str s => s.all wfChar
  | .arr xs => xs.wfL
  | .obj fs => fs.wfF

/-- Well-formedness of array elements. -/
def JList.wfL : JList → Bool
  | .nil => true
  | .cons x xs => x.wf && xs.wfL

/-- Well-formedness of object fields (keys clean too). -/
def JFields.wfF : JFields → Bool
  | .nil => true
  | .cons k v fs => k.all wfChar && v.wf && fs.wfF

end

mutual

/-- Fuel bound for the JSON parser on the serialization of a value. -/
def Json.msize : Json → Nat
  | .null => 1
  | .bool _ => 1
  | .num _ => 1
  | .str _ => 1
  | .arr xs => 1 + xs.msizeL
  | .obj fs => 1 + fs.msizeF

/-- Fuel bound for array elements. -/
def JList.msizeL : JList → Nat
  | .nil => 0
  | .cons x xs => 1 + x.msize + xs.msizeL

/-- Fuel bound for object fields. -/
def JFields.msizeF : JFields → Nat
  | .nil => 0
  | .cons _ v fs => 1 + v.msize + fs.msizeF

end

/-! ### JSON parser (models `JSON.parse` on the fragment) -/

/-- Strip an exact expected prefix from the input. -/
def expectChars : Str → Str → Option Str
  | [], input => some input
  | c :: cs, input =>
    match input with
    | d :: rest => if d = c then expectChars cs rest else none
    | [] => none

/-- Parse the body of a JSON string after the opening quote, up to the
closing quote.  Escape sequences are outside the modelled fragment. -/
def parseStringBody : Str → Option (Str × Str)
  | [] => none
  | c :: rest =>
    if c = '"' then some ([], rest)
    else if c = '\\' then none
    else (parseStringBody rest).map (fun p => (c :: p.1, p.2))

/-- Parse a nonempty run of decimal digits into a natural number. -/
def parseNatNum (input : Str) : Option (Nat × Str) :=
  let ds := input.takeWhile Char.isDigit
  if ds.isEmpty then none
  else some (digitsVal ds, input.dropWhile Char.isDigit)

/-- Does the text start with the given character? -/
def headIs (s : Str) (c : Char) : Bool :=
  match s with
  | x :: _ => x = c
  | [] => false

/-- The text does not start with a decimal digit (used to delimit the
number grammar in roundtrip statements). -/
def noDigitHead (s : Str) : Bool :=
  match s with
  | c :: _ => ¬ c.isDigit
  | [] => true

/-- Parser modes: a single value, array elements, or object fields. -/
inductive PMode where
  | val : PMode
  | elems : PMode
  | fields : PMode

/-- Parser results, per mode. -/
inductive PRes where
  | val (v : Json) (rest : Str) : PRes
  | elems (vs : JList) (rest : Str) : PRes
  | fields (fs : JFields) (rest : Str) : PRes

/-- Fuelled recursive-descent JSON parser over the modelled fragment.
In `.elems` mode the input starts after `[` (nonempty element list, up
to and including `]`); in `.fields` mode after the opening brace
likewise. -/
def parseF : Nat → PMode → Str → Option PRes
  | 0, _, _ => none
  | fuel + 1, .val, input =>
    match input with
    | [] => none
    | c :: rest =>
      if c.isDigit then (parseNatNum input).map (fun p => .val (.num (p.1 : Int)) p.2)
      else if c = '-' then (parseNatNum rest).map (fun p => .val (.num (-(p.1 : Int))) p.2)
      else if c = '"' then (parseStringBody rest).map (fun p => .val (.str p.1) p.2)
      else if c = 'n' then (expectChars "ull".data rest).map (fun r => .val .null r)
      else if c = 't' then (expectChars "rue".data rest).map (fun r => .val (.bool true) r)
      else if c = 'f' then (expectChars "alse".data rest).map (fun r => .val (.bool false) r)
      else if c = '[' then
        if headIs rest ']' then some (.val (.arr .nil) rest.tail)
        else
          match parseF fuel .elems rest with
          | some (.elems vs r) => some (.val (.arr vs) r)
          | _ => none
      else if c = '\x7b' then
        if headIs rest '\x7d' then some (.val (.obj .nil) rest.tail)
        else
          match parseF fuel .fields rest with
          | some (.fields fs r) => some (.val (.obj fs) r)
          | _ => none
      else none
  | fuel + 1, .elems, input =>
    match parseF fuel .val input with
    | some (.val v r1) =>
      match r1 with
      | ',' :: r2 =>
        (match parseF fuel .elems r2 with
         | some (.elems vs r3) => some (.elems (.cons v vs) r3)
         | _ => none)
      | ']' :: r2 => some (.elems (.cons v .nil) r2)
      | _ => none
    | _ => none
  | fuel + 1, .fields, input =>
    match input with
    | '"' :: rest =>
      match parseStringBody rest with
      | some (k, r1) =>
        match r1 with
        | ':' :: r2 =>
          (match parseF fuel .val r2 with
           | some (.val v r3) =>
             match r3 with
             | ',' :: r4 =>
               (match parseF fuel .fields r4 with
                | some (.fields fs r5) => some (.fields (.cons k v fs) r5)
                | _ => none)
             | '\x7d' :: r4 => some (.fields (.cons k v .nil) r4)
             | _ => none
           | _ => none)
        | _ => none
      | none => none
    | _ => none

/-- Parse a complete JSON text (full consumption required), modelling
`JSON.parse` on the fragment. -/
def jsonParse (text : Str) : Option Json :=
  match parseF (text.length + 1) .val text with
  | some (.val v []) => some v
  | _ => none

/-! ### Base64url codec (models the `@dwbinns/base/64url` leaf) -/

/-- The base64url alphabet, URL-safe, no padding. -/
def b64Alphabet : Str := "ABCDEFGHIJKLMNOPQRSTUVWXYZabcdefghijklmnopqrstuvwxyz0123456789-_".data

/-- Character for a 6-bit value. -/
def b64Char (k : Nat) : Char := b64Alphabet.getD k 'A'

/-- 6-bit value of an alphabet character; `none` for characters outside
the base64url alphabet. -/
def b64Val (c : Char) : Option Nat :=
  let n := c.toNat
  if 65 ≤ n && n ≤ 90 then some (n - 65)
  else if 97 ≤ n && n ≤ 122 then some (n - 97 + 26)
  else if 48 ≤ n && n ≤ 57 then some (n - 48 + 52)
  else if c = '-' then some 62
  else if c = '_' then some 63
  else none

/-- Base64url encoding of a byte list (unpadded, URL-safe alphabet). -/
def b64urlEncode : List Nat → Str
  | [] => []
  | [a] => [b64Char (a / 4), b64Char (a % 4 * 16)]
  | [a, b] => [b64Char (a / 4), b64Char (a % 4 * 16 + b / 16), b64Char (b % 16 * 4)]
  | a :: b :: c :: rest =>
      b64Char (a / 4) :: b64Char (a % 4 * 16 + b / 16) :: b64Char (b % 16 * 4 + c / 64)
        :: b64Char (c % 64) :: b64urlEncode rest

/-- Base64url decoding of an unpadded string; fails on characters outside
the alphabet and on impossible lengths (`length % 4 = 1`). -/
def b64urlDecode : Str → Option (List Nat)
  | [] => some []
  | [_] => none
  | [c1, c2] => do
      let v1 ← b64Val c1
      let v2 ← b64Val c2
      pure [v1 * 4 + v2 / 16]
  | [c1, c2, c3] => do
      let v1 ← b64Val c1
      let v2 ← b64Val c2
      let v3 ← b64Val c3
      pure [v1 * 4 + v2 / 16, v2 % 16 * 16 + v3 / 4]
  | c1 :: c2 :: c3 :: c4 :: rest => do
      let v1 ← b64Val c1
      let v2 ← b64Val c2
      let v3 ← b64Val c3
      let v4 ← b64Val c4
      let tail ← b64urlDecode rest
      pure ((v1 * 4 + v2 / 16) :: (v2 % 16 * 16 + v3 / 4) :: (v3 % 4 * 64 + v4) :: tail)

/-! ### Text/bytes conversion (models UTF-8 on the ASCII fragment) -/

/-- Bytes of a text, modelling `TextEncoder().encode` on the ASCII
fragment (one byte per character). -/
def textToBytes (s : Str) : List Nat := s.map Char.toNat

/-- Text of a byte list; inverse of `textToBytes` on the fragment. -/
def bytesToText (bs : List Nat) : Str := bs.map Char.ofNat

/-- Models `b64url.encodeText`: UTF-8 encode, then base64url. -/
def b64urlEncodeText (s : Str) : Str := b64urlEncode (textToBytes s)

/-- Models `b64url.decodeText`: base64url decode, then UTF-8 decode. -/
def b64urlDecodeText (s : Str) : Option Str := (b64urlDecode s).map bytesToText

/-! ### Splitting and trimming -/

/-- Whitespace characters recognized by the model of `String.trim`. -/
def isWs (c : Char) : Bool := c = ' ' || c = '\n' || c = '\t' || c = '\r'

/-- Models `text.trim()` (on the modelled whitespace set). -/
def jsTrim (s : Str) : Str :=
  ((s.dropWhile isWs).reverse.dropWhile isWs).reverse

/-- Models `text.split(".")`. -/
def splitOnDot : Str → List Str
  | [] => [[]]
  | c :: rest =>
    if c = '.' then [] :: splitOnDot rest
    else
      match splitOnDot rest with
      | g :: gs => (c :: g) :: gs
      | [] => [[c]]

/-! ### Error taxonomy

Maps the `Error` messages thrown by src/jwt.js (and by the platform
pieces it calls) to distinguishable kinds:
`malformedToken` ↔ the failures inside `parse` (bad base64url, bad JSON,
and the ungraceful failure on fewer than three segments),
`unknownAlgorithm` ↔ "Unknown algorithm: …", `invalidSignature` ↔
"JWT not valid", `expired` ↔ "JWT expired", `notYetValid` ↔
"JWT not yet valid", `keyNotFound` ↔ "Key not known", `noSigningKey` ↔
"No private key supplied", `missingTimeReference` ↔ "No creation time or
issued time available", `fetchFailed` ↔ "JWKS fetch failed",
`platformError` ↔ an error surfaced by the host (e.g. WebCrypto rejecting
a sign call without a key, or destructuring a non-object). -/
inductive JwtError where
  | malformedToken : JwtError
  | unknownAlgorithm (alg : Str) : JwtError
  | invalidSignature : JwtError
  | expired : JwtError
  | notYetValid : JwtError
  | keyNotFound : JwtError
  | noSigningKey : JwtError
  | missingTimeReference : JwtError
  | fetchFailed : JwtError
  | platformError : JwtError
deriving DecidableEq

/-! ### Algorithm registry (src/jwt.js lines 6-27, 86-92) -/

/-- WebCrypto parameter dictionary used by the registry entries. -/
structure AlgCryptoParams where
  name : Str
  hash : Option Str
  namedCurve : Option Str
deriving DecidableEq

/-- One registry entry: key-import parameters and signature parameters. -/
structure AlgParams where
  importKeyParams : AlgCryptoParams
  signatureParams : AlgCryptoParams
deriving DecidableEq

/-- The fixed algorithm registry (the `algorithms` constant). -/
def algorithms (alg : Str) : Option AlgParams :=
  if alg = "RS256".data then
    some ⟨⟨"RSASSA-PKCS1-v1_5".data, some ("SHA-256".data), none⟩,
          ⟨"RSASSA-PKCS1-v1_5".data, none, none⟩⟩
  else if alg = "ES256".data then
    some ⟨⟨"ECDSA".data, none, some ("P-256".data)⟩,
          ⟨"ECDSA".data, some ("SHA-256".data), none⟩⟩
  else none

/-- Models `getParameters`: registry lookup, throwing on unknown
algorithm identifiers. -/
def getParameters (alg : Str) : Except JwtError AlgParams :=
  match algorithms alg with
  | none => .error (.unknownAlgorithm alg)
  | some p => .ok p

/-! ### Key records and the abstract crypto subsystem -/

/-- The common key representation produced by the importers.  Handles are
opaque `Nat` tags chosen by the abstract crypto subsystem; `privateKey`
is `none` when the record carries no private material (a falsy value in
the JavaScript record). -/
structure KeyRecord where
  alg : Str
  kid : Option Str
  privateKey : Option Nat
  publicKey : Nat

/-- Key argument of `verify`/`create`: a bare record or an array. -/
inductive Keys where
  | one (k : KeyRecord) : Keys
  | many (ks : List KeyRecord) : Keys

/-- Models `Array.isArray(keys) ? keys : [keys]`. -/
def normalizeKeys : Keys → List KeyRecord
  | .one k => [k]
  | .many ks => ks

/-- Abstract model of `crypto.subtle`: signing, signature verification
and key import.  Handles and handle assignment are opaque. -/
structure SubtleCrypto where
  sign : AlgCryptoParams → Nat → List Nat → List Nat
  verify : AlgCryptoParams → Nat → List Nat → List Nat → Bool
  importKey : Str → Json → AlgCryptoParams → Bool → List Str → Nat

/-! ### Token codec (src/jwt.js lines 30-37) -/

/-- Result of `parse`: decoded header and claims, raw signature bytes,
and the verbatim signed substring `header.claims`. -/
structure ParsedToken where
  header : Json
  claims : Json
  signature : List Nat
  signed : Str

/-- Models `parse(text)`.  Splits on `.`; the JavaScript destructuring
`let [h, c, s] = …` uses only the first three segments, so extra
segments are silently ignored; on fewer than three segments the
JavaScript decode of `undefined` fails ungracefully, modelled as
`malformedToken` like the other in-parse failures (bad base64url or bad
JSON in any decoded segment). -/
def parse (text : Str) : Except JwtError ParsedToken :=
  match splitOnDot (jsTrim text) with
  | headerEncoded :: claimsEncoded :: signatureEncoded :: _ =>
    match b64urlDecodeText headerEncoded with
    | none => .error .malformedToken
    | some headerText =>
      match jsonParse headerText with
      | none => .error .malformedToken
      | some header =>
        match b64urlDecodeText claimsEncoded with
        | none => .error .malformedToken
        | some claimsText =>
          match jsonParse claimsText with
          | none => .error .malformedToken
          | some claims =>
            match b64urlDecode signatureEncoded with
            | none => .error .malformedToken
            | some signature =>
              .ok ⟨header, claims, signature, headerEncoded ++ '.' :: claimsEncoded⟩
  | _ => .error .malformedToken

/-! ### Verification engine (src/jwt.js lines 40-84) -/

/-- Loose (`!=`) comparison between an optional JSON header field and an
optional string from a key record: `undefined == undefined` and
`null == undefined` hold, strings compare by value; other coercing
comparisons do not arise for the string/undefined values this engine
compares. -/
def looseEqOptStr (j : Option Json) (s : Option Str) : Bool :=
  match j, s with
  | none, none => true
  | some .null, none => true
  | some (.str t), some u => t = u
  | _, _ => false

/-- Loose comparison of an optional JSON header field with a string. -/
def looseEqStr (j : Option Json) (s : Str) : Bool :=
  match j with
  | some (.str t) => t = s
  | _ => false

/-- The temporal checks of `verify` (lines 64-78): an `exp` claim that is
truthy and numerically below `now` (epoch seconds) throws `expired`;
then an `iat` claim that is truthy and above `now` throws `notYetValid`.
JavaScript compares `claims.exp < now.getTime()/1e3` as exact reals (for
integral claims and millisecond times); the model scales both sides by
1000 and compares integers, which is the same comparison.  Non-numeric
truthy values compare as NaN in JavaScript (every comparison false),
hence skip; numeric-string coercion is outside the fragment. -/
def checkTemporal (claims : Json) (nowMs : Int) : Except JwtError Unit :=
  let expV := claims.get ("exp".data)
  let expOk : Except JwtError Unit :=
    if Json.truthyOpt expV then
      match Json.asNum expV with
      | some e => if 1000 * e < nowMs then .error .expired else .ok ()
      | none => .ok ()
    else .ok ()
  match expOk with
  | .error err => .error err
  | .ok _ =>
    let iatV := claims.get ("iat".data)
    if Json.truthyOpt iatV then
      match Json.asNum iatV with
      | some i => if 1000 * i > nowMs then .error .notYetValid else .ok ()
      | none => .ok ()
    else .ok ()

/-- The candidate scan of `verify`, with an instrumentation trace: the
second component lists the public-key handles on which
`crypto.subtle.verify` was invoked, in order.  Mirrors lines 43-83:
registry lookup happens before the `(kid, alg)` match test; non-matching
candidates are skipped; a matching candidate's failed cryptographic
check throws immediately; the temporal checks run after a valid
signature; an exhausted list throws `keyNotFound`. -/
def verifyLoop (c : SubtleCrypto) (p : ParsedToken) (nowMs : Int) :
    List KeyRecord → Except JwtError Json × List Nat
  | [] => (.error .keyNotFound, [])
  | key :: rest =>
    match algorithms key.alg with
    | none => (.error (.unknownAlgorithm key.alg), [])
    | some params =>
      if ¬ (looseEqOptStr (p.header.get ("kid".data)) key.kid
            ∧ looseEqStr (p.header.get ("alg".data)) key.alg) then
        verifyLoop c p nowMs rest
      else
        let valid := c.verify params.signatureParams key.publicKey p.signature (textToBytes p.signed)
        if ¬ valid then (.error .invalidSignature, [key.publicKey])
        else
          match checkTemporal p.claims nowMs with
          | .error err => (.error err, [key.publicKey])
          | .ok _ => (.ok p.claims, [key.publicKey])

/-- Models `verify(keys, text, now)`, instrumented with the trace of
cryptographic checks. -/
def verifyTraced (c : SubtleCrypto) (keys : Keys) (text : Str) (nowMs : Int) :
    Except JwtError Json × List Nat :=
  match parse text with
  | .error e => (.error e, [])
  | .ok p => verifyLoop c p nowMs (normalizeKeys keys)

/-- Models `verify(keys, text, now)`: the returned claims or the thrown
error. -/
def verify (c : SubtleCrypto) (keys : Keys) (text : Str) (nowMs : Int) :
    Except JwtError Json :=
  (verifyTraced c keys text nowMs).1

/-! ### Issuance engine (src/jwt.js lines 184-200) -/

/-- Models `create(keys, claims)`.  From an array, the first record with
a truthy `privateKey` is chosen (`noSigningKey` when none); a bare
record is used as-is, object truthiness making the `!key` guard pass —
signing then fails at the platform level when it has no private handle.
The header is `{kid, alg}`; `JSON.stringify` drops a `kid` field whose
value is `undefined`. -/
def create (c : SubtleCrypto) (keys : Keys) (claims : Json) : Except JwtError Str :=
  let key? : Option KeyRecord :=
    match keys with
    | .many ks => (ks.filter (fun k => k.privateKey.isSome)).head?
    | .one k => some k
  match key? with
  | none => .error .noSigningKey
  | some key =>
    match algorithms key.alg with
    | none => .error (.unknownAlgorithm key.alg)
    | some params =>
      let header : Json := .obj (JFields.ofList
        ((match key.kid with
          | some kd => [("kid".data, Json.str kd)]
          | none => []) ++ [("alg".data, Json.str key.alg)]))
      let headerEncoded := b64urlEncodeText header.stringify
      let claimsEncoded := b64urlEncodeText claims.stringify
      match key.privateKey with
      | none => .error .platformError
      | some sk =>
        let signatureEncoded :=
          b64urlEncode (c.sign params.signatureParams sk
            (textToBytes (headerEncoded ++ '.' :: claimsEncoded)))
        .ok (headerEncoded ++ '.' :: claimsEncoded ++ '.' :: signatureEncoded)

/-! ### Key import adapters (src/jwt.js lines 129-160) -/

/-- Removal of named fields from a JWK object (models the JavaScript
spread-with-`undefined` pattern, whose effect on the WebCrypto JWK
dictionary is field absence), and of rest-destructured fields. -/
def jwkFieldsStrip (names : List Str) : JFields → JFields
  | .nil => .nil
  | .cons k v fs =>
    if names.contains k then jwkFieldsStrip names fs
    else .cons k v (jwkFieldsStrip names fs)

/-- Field removal on a JWK value (non-objects unchanged). -/
def jwkStrip (j : Json) (names : List Str) : Json :=
  match j with
  | .obj fs => .obj (jwkFieldsStrip names fs)
  | other => other

/-- Models `importPublic(alg, jwk)` (lines 140-144): strips the private
fields `d`, `dp`, `dq`, `q`, `qi` (and nothing else) and imports the
result for verification. -/
def importPublic (c : SubtleCrypto) (alg : Str) (jwk : Json) : Except JwtError Nat :=
  match algorithms alg with
  | none => .error (.unknownAlgorithm alg)
  | some params =>
    let publicJWK := jwkStrip jwk ["d".data, "dp".data, "dq".data, "q".data, "qi".data]
    .ok (c.importKey ("jwk".data) publicJWK params.importKeyParams true ["verify".data])

/-- String under which a JSON `alg` value is looked up in the registry;
non-string values never match a registry key (their JavaScript string
coercions are not registry members). -/
def algKeyOf : Option Json → Str
  | some (.str s) => s
  | _ => "?".data

/-- Optional string taken from a JSON `kid` value. -/
def kidKeyOf : Option Json → Option Str
  | some (.str s) => some s
  | _ => none

/-- Models the `keys.map(...)` body of `importJWKS` over the entry list:
an entry with falsy `alg` yields `null` (here `none`) in place; other
entries import their public key (the rest-spread having removed `alg`
and `kid`), any import error rejecting the whole result. -/
def importJWKSEntries (c : SubtleCrypto) : JList → Except JwtError (List (Option KeyRecord))
  | .nil => .ok []
  | .cons e rest =>
    let algJ := e.get ("alg".data)
    if ¬ Json.truthyOpt algJ then
      match importJWKSEntries c rest with
      | .error err => .error err
      | .ok out => .ok (none :: out)
    else
      let alg := algKeyOf algJ
      match importPublic c alg (jwkStrip e ["alg".data, "kid".data]) with
      | .error err => .error err
      | .ok pub =>
        match importJWKSEntries c rest with
        | .error err => .error err
        | .ok out => .ok (some ⟨alg, kidKeyOf (e.get ("kid".data)), none, pub⟩ :: out)

/-- Models `importJWKS({keys})` (lines 146-152): destructures the `keys`
list and maps the entries; a set object without a `keys` array fails at
the platform level. -/
def importJWKS (c : SubtleCrypto) (jwkSet : Json) : Except JwtError (List (Option KeyRecord)) :=
  match jwkSet.get ("keys".data) with
  | some (.arr entries) => importJWKSEntries c entries
  | _ => .error .platformError

/-- Models `importJWK(alg, kid, jwk)` (lines 154-160): a private handle
is built exactly when `jwk.d` is truthy; the public handle comes from
`importPublic`; the result is a single-record list. -/
def importJWK (c : SubtleCrypto) (alg : Str) (kid : Option Str) (jwk : Json) :
    Except JwtError (List KeyRecord) :=
  match algorithms alg with
  | none => .error (.unknownAlgorithm alg)
  | some params =>
    let privateKey : Option Nat :=
      if Json.truthyOpt (jwk.get ("d".data)) then
        some (c.importKey ("jwk".data) jwk params.importKeyParams true ["sign".data])
      else none
    match importPublic c alg jwk with
    | .error err => .error err
    | .ok pub => .ok [⟨alg, kid, privateKey, pub⟩]

/-- The URL string built by `importHostJWKS` (line 130): note the
misplaced dot, producing host `{hostname}.` and path
`/well-known/jwks.json`. -/
def importHostJWKSUrl (hostname : Str) : Str :=
  "https://".data ++ hostname ++ "./well-known/jwks.json".data

/-- Modelled from the spec: the conventional well-known JWKS URL
`https://{hostname}/.well-known/jwks.json` that §4.3 prescribes for
`importHostJWKS` (for comparison with the URL the source builds). -/
def specWellKnownJwksUrl (hostname : Str) : Str :=
  "https://".data ++ hostname ++ "/.well-known/jwks.json".data

/-- Models `importURLJWKS(url)` (lines 133-138); the network fetch and
response decoding are a platform parameter `fetchJson` (a non-success
response is `fetchFailed`). -/
def importURLJWKS (c : SubtleCrypto) (fetchJson : Str → Except JwtError Json) (url : Str) :
    Except JwtError (List (Option KeyRecord)) :=
  match fetchJson url with
  | .error err => .error err
  | .ok body => importJWKS c body

/-- Models `importHostJWKS(hostname)` (lines 129-131): delegates to
`importURLJWKS` with the URL it builds. -/
def importHostJWKS (c : SubtleCrypto) (fetchJson : Str → Except JwtError Json) (hostname : Str) :
    Except JwtError (List (Option KeyRecord)) :=
  importURLJWKS c fetchJson (importHostJWKSUrl hostname)

/-! ### Expiry-fraction utility (src/jwt.js lines 170-182) -/

/-- Numeric value of an optional JSON value, `0` otherwise (non-numeric
truthy temporal fields make JavaScript compute NaN; that region is
outside the modelled fragment). -/
def numQ : Option Json → ℚ
  | some (.num n) => (n : ℚ)
  | _ => 0

/-- Models `expiredFraction(jwt, createdAt, now)`: a falsy `exp` yields
`0`; a falsy `iat` with no `createdAt` throws; otherwise the fraction
`(now − created) / (exp − issuedAt)` in epoch seconds, `created` being
`createdAt` when supplied else `iat`, and `issuedAt` being `iat` when
truthy else `createdAt` (`iat || createdAt.getTime()/1e3`).  When
`exp = issuedAt`, JavaScript divides by zero (±Infinity/NaN), Lean's
`ℚ` gives `0`; theorems avoid that point. -/
def expiredFraction (jwt : Str) (createdAt : Option Int) (nowMs : Int) : Except JwtError ℚ :=
  match parse jwt with
  | .error e => .error e
  | .ok p =>
    let expV := p.claims.get ("exp".data)
    let iatV := p.claims.get ("iat".data)
    if ¬ Json.truthyOpt expV then .ok 0
    else if ¬ Json.truthyOpt iatV && createdAt.isNone then .error .missingTimeReference
    else
      let created : ℚ :=
        match createdAt with
        | some ms => (ms : ℚ) / 1000
        | none => numQ iatV
      let issuedAt : ℚ :=
        if Json.truthyOpt iatV then numQ iatV
        else
          match createdAt with
          | some ms => (ms : ℚ) / 1000
          | none => 0   -- unreachable: a falsy iat without createdAt threw above
      .ok (((nowMs : ℚ) / 1000 - created) / (numQ expV - issuedAt))

/-! ### Spec-side definitions for the expiry-fraction formula -/

/-- Modelled from the spec (§4.7): `created` = `createdAt` if supplied,
else `claims.iat` (epoch seconds). -/
def createdQ (createdAt : Option Int) (iat : Option Json) : ℚ :=
  match createdAt with
  | some ms => (ms : ℚ) / 1000
  | none => numQ iat

/-- Modelled from the spec (§4.7), amended to the source's truthiness
test: `issuedAt` = `claims.iat` if truthy, else `createdAt`. -/
def issuedAtQ (createdAt : Option Int) (iat : Option Json) : ℚ :=
  if Json.truthyOpt iat then numQ iat
  else
    match createdAt with
    | some ms => (ms : ℚ) / 1000
    | none => 0

/-! ### Concrete instances used by witnesses and counterexamples -/

/-- Toy crypto subsystem: constant `[0]` signatures, always-accepting
verification, constant import handle `7`. -/
def toyCrypto : SubtleCrypto :=
  ⟨fun _ _ _ => [0], fun _ _ _ _ => true, fun _ _ _ _ _ => 7⟩

/-- Toy crypto subsystem whose verification always rejects. -/
def toyCryptoReject : SubtleCrypto :=
  ⟨fun _ _ _ => [0], fun _ _ _ _ => false, fun _ _ _ _ _ => 7⟩

/-- A concrete ES256 key record with kid `k`. -/
def wKey : KeyRecord := ⟨"ES256".data, some ("k".data), some 5, 9⟩

/-- A second record matching the same header (public handle 11). -/
def wKeyB : KeyRecord := ⟨"ES256".data, some ("k".data), none, 11⟩

/-- A record with an algorithm absent from the registry. -/
def wKeyFoo : KeyRecord := ⟨"FOO".data, some ("x".data), none, 3⟩

/-- A registered record whose kid does not match header kid `k`. -/
def wKeyOther : KeyRecord := ⟨"RS256".data, some ("other".data), none, 13⟩

/-- The header `(kid = "k", alg = "ES256")` as JSON. -/
def wHeader : Json :=
  .obj (.cons ("kid".data) (.str ("k".data)) (.cons ("alg".data) (.str ("ES256".data)) .nil))

/-- A token with the `wHeader` header, given claims, and the one-byte
signature `[0]` (base64url `AA`). -/
def wToken (claims : Json) : Str :=
  b64urlEncodeText wHeader.stringify ++
    ('.' :: (b64urlEncodeText claims.stringify ++ ('.' :: "AA".data)))

/-- The parsed form of `wToken claims`. -/
def wParsed (claims : Json) : ParsedToken :=
  ⟨wHeader, claims, [0],
    b64urlEncodeText wHeader.stringify ++ '.' :: b64urlEncodeText claims.stringify⟩

/-- Claims `{exp: 100}`. -/
def wClaimsExp100 : Json := .obj (.cons ("exp".data) (.num 100) .nil)

/-- Claims `{exp: 0, iat: 0}`. -/
def wClaimsZero : Json :=
  .obj (.cons ("exp".data) (.num 0) (.cons ("iat".data) (.num 0) .nil))

/-- Claims `{iat: 0, exp: 100}`. -/
def wClaimsIat0 : Json :=
  .obj (.cons ("iat".data) (.num 0) (.cons ("exp".data) (.num 100) .nil))

/-- Claims `{iat: 10, exp: 100}`. -/
def wClaimsIat10 : Json :=
  .obj (.cons ("iat".data) (.num 10) (.cons ("exp".data) (.num 100) .nil))

/-- Claims `{exp: 100, iat: 0}` (used by the round-trip witness). -/
def wClaimsEI : Json :=
  .obj (.cons ("exp".data) (.num 100) (.cons ("iat".data) (.num 0) .nil))

/-- Token with claims `{exp: 100}`. -/
def wTokExp100 : Str := wToken wClaimsExp100

/-- Token with claims `{exp: 0, iat: 0}`. -/
def wTokZero : Str := wToken wClaimsZero

/-- Token with claims `{iat: 0, exp: 100}`. -/
def wTokIat0 : Str := wToken wClaimsIat0

/-- Token with claims `{iat: 10, exp: 100}`. -/
def wTokIat10 : Str := wToken wClaimsIat10

/-- The token produced by `create` with `toyCrypto`, `wKey`, `wClaimsEI`. -/
def wTokCreated : Str := ((create toyCrypto (.one wKey) wClaimsEI).toOption).getD []

/-- JWK Set entry with an `alg` (ES256, kid `a`). -/
def wEntryA : Json :=
  .obj (.cons ("kty".data) (.str ("EC".data))
    (.cons ("alg".data) (.str ("ES256".data)) (.cons ("kid".data) (.str ("a".data)) .nil)))

/-- JWK Set entry lacking `alg`. -/
def wEntryNoAlg : Json := .obj (.cons ("kty".data) (.str ("EC".data)) .nil)

/-- JWK Set entry with an `alg` (RS256, kid `b`). -/
def wEntryB : Json :=
  .obj (.cons ("alg".data) (.str ("RS256".data)) (.cons ("kid".data) (.str ("b".data)) .nil))

/-- The three entries of the concrete JWK Set. -/
def wEntries : JList := .cons wEntryA (.cons wEntryNoAlg (.cons wEntryB .nil))

/-- A JWK Set object with three entries, the middle one lacking `alg`. -/
def wJwks : Json := .obj (.cons ("keys".data) (.arr wEntries) .nil)

/-- A JWK containing an empty-string `d` (present but falsy) and a
`key_ops` restriction list. -/
def wJwkBad : Json :=
  .obj (.cons ("kty".data) (.str ("EC".data))
    (.cons ("d".data) (.str [])
      (.cons ("key_ops".data) (.arr (.cons (.str ("sign".data)) .nil)) .nil)))

/-- A JWK with a truthy `d`. -/
def wJwkGood : Json :=
  .obj (.cons ("kty".data) (.str ("EC".data)) (.cons ("d".data) (.str ("x".data)) .nil))

/-! ## Supporting lemmas: lists and characters -/

/-- `takeWhile` passes over a fully satisfying prefix. -/
theorem takeWhile_append_all {p : Char → Bool} {xs ys : Str} (h : xs.all p) :
    (xs ++ ys).takeWhile p = xs ++ ys.takeWhile p := by
  induction xs with
  | nil => simp
  | cons a l ih =>
    simp only [List.all_cons, Bool.and_eq_true] at h
    simp [List.takeWhile_cons, h.1, ih h.2]

/-- `dropWhile` skips a fully satisfying prefix. -/
theorem dropWhile_append_all {p : Char → Bool} {xs ys : Str} (h : xs.all p) :
    (xs ++ ys).dropWhile p = ys.dropWhile p := by
  induction xs with
  | nil => simp
  | cons a l ih =>
    simp only [List.all_cons, Bool.and_eq_true] at h
    simp [List.dropWhile_cons, h.1, ih h.2]

/-- `takeWhile` stops at a failing head. -/
theorem takeWhile_head_false {p : Char → Bool} {ys : Str} (h : noDigitHead ys = true)
    (hp : p = Char.isDigit) : ys.takeWhile p = [] := by
  cases ys with
  | nil => simp
  | cons a l =>
    simp only [noDigitHead, Bool.not_eq_true', decide_eq_true_eq] at h
    subst hp
    simp [List.takeWhile_cons, h]

/-- `dropWhile` keeps a list with a failing head. -/
theorem dropWhile_head_false {p : Char → Bool} {ys : Str} (h : noDigitHead ys = true)
    (hp : p = Char.isDigit) : ys.dropWhile p = ys := by
  cases ys with
  | nil => simp
  | cons a l =>
    simp only [noDigitHead, Bool.not_eq_true', decide_eq_true_eq] at h
    subst hp
    simp [List.dropWhile_cons, h]

/-- The digit characters are digits. -/
theorem digitChar_isDigit {k : Nat} (h : k < 10) : (digitChar k).isDigit = true := by
  interval_cases k <;> decide

/-- Code point of a digit character. -/
theorem digitChar_toNat {k : Nat} (h : k < 10) : (digitChar k).toNat = 48 + k := by
  interval_cases k <;> decide

/-- Value appended digit: `digitsVal` unfolds over a trailing digit. -/
theorem digitsVal_append_singleton (xs : Str) (c : Char) :
    digitsVal (xs ++ [c]) = 10 * digitsVal xs + (c.toNat - 48) := by
  simp [digitsVal, List.foldl_append]

/-- The fuelled digit printer is correct: nonempty, all digits, value `n`. -/
theorem natCharsAux_spec : ∀ fuel n, n < fuel →
    natCharsAux fuel n ≠ [] ∧ (natCharsAux fuel n).all Char.isDigit = true ∧
      digitsVal (natCharsAux fuel n) = n := by
  intro fuel
  induction fuel with
  | zero => intro n h; omega
  | succ f ih =>
    intro n h
    by_cases h10 : n < 10
    · refine ⟨by simp [natCharsAux, h10], ?_, ?_⟩
      · simp [natCharsAux, h10, digitChar_isDigit h10]
      · simp [natCharsAux, h10, digitsVal, digitChar_toNat h10]
    · have hdiv : n / 10 < f := by omega
      obtain ⟨hne, hall, hval⟩ := ih (n / 10) hdiv
      have hmod : n % 10 < 10 := Nat.mod_lt _ (by omega)
      refine ⟨by simp [natCharsAux, h10], ?_, ?_⟩
      · simp [natCharsAux, h10, List.all_append, hall, digitChar_isDigit hmod]
      · simp only [natCharsAux, h10, if_false, digitsVal_append_singleton, hval,
          digitChar_toNat hmod]
        omega

/-- `natChars` is correct. -/
theorem natChars_spec (n : Nat) :
    natChars n ≠ [] ∧ (natChars n).all Char.isDigit = true ∧ digitsVal (natChars n) = n :=
  natCharsAux_spec (n + 1) n (Nat.lt_succ_self n)

/-- Parsing the decimal print of `n` followed by a non-digit remainder. -/
theorem parseNatNum_natChars (n : Nat) (r : Str) (hr : noDigitHead r = true) :
    parseNatNum (natChars n ++ r) = some (n, r) := by
  obtain ⟨hne, hall, hval⟩ := natChars_spec n
  have htw : (natChars n ++ r).takeWhile Char.isDigit = natChars n := by
    rw [takeWhile_append_all hall, takeWhile_head_false hr rfl, List.append_nil]
  have hdw : (natChars n ++ r).dropWhile Char.isDigit = r := by
    rw [dropWhile_append_all hall, dropWhile_head_false hr rfl]
  simp [parseNatNum, htw, hdw, List.isEmpty_iff, hne, hval]

/-! ## Supporting lemmas: JSON roundtrip -/

/-- Parsing a clean string body followed by the closing quote. -/
theorem parseStringBody_append (s : Str) (r : Str) (h : s.all wfChar = true) :
    parseStringBody (s ++ '"' :: r) = some (s, r) := by
  induction s with
  | nil => rfl
  | cons c t ih =>
    simp only [List.all_cons, Bool.and_eq_true, wfChar, decide_eq_true_eq,
      bne_iff_ne, ne_eq] at h
    obtain ⟨⟨⟨hlt, hq⟩, hb⟩, ht⟩ := h
    simp [parseStringBody, if_neg hq, if_neg hb, ih ht]

/-- Stripping an expected prefix from itself. -/
theorem expectChars_self (cs r : Str) : expectChars cs (cs ++ r) = some r := by
  induction cs with
  | nil => rfl
  | cons c t ih => simp [expectChars, ih]

/-- Every serialized JSON value is nonempty and starts with one of the
value-grammar head characters. -/
theorem stringify_head (j : Json) : ∃ c t, j.stringify = c :: t ∧
    (c.isDigit = true ∨ c = '-' ∨ c = '"' ∨ c = 'n' ∨ c = 't' ∨ c = 'f' ∨
      c = '[' ∨ c = '\x7b') := by
  cases j with
  | null => exact ⟨'n', _, rfl, by simp⟩
  | bool b =>
    cases b with
    | false => exact ⟨'f', _, rfl, by simp⟩
    | true => exact ⟨'t', _, rfl, by simp⟩
  | num n =>
    by_cases hn : n < 0
    · exact ⟨'-', natChars n.natAbs, by simp [Json.stringify, intChars, hn], by simp⟩
    · obtain ⟨hne, hall, -⟩ := natChars_spec n.toNat
      obtain ⟨c, t, hct⟩ := List.exists_cons_of_ne_nil hne
      refine ⟨c, t, by simp [Json.stringify, intChars, hn, hct], Or.inl ?_⟩
      have := List.all_eq_true.mp hall c (by simp [hct])
      exact this
  | str s => exact ⟨'"', _, rfl, by simp⟩
  | arr xs => exact ⟨'[', _, rfl, by simp⟩
  | obj fs => exact ⟨'\x7b', _, rfl, by simp⟩

/-- The serialization of a nonempty element list starts with the first
element's serialization. -/
theorem strElems_cons_decomp (x : Json) (xs : JList) :
    ∃ t, JList.strElems (.cons x xs) = x.stringify ++ t := by
  cases xs with
  | nil => exact ⟨[], by simp [JList.strElems]⟩
  | cons y ys => exact ⟨',' :: JList.strElems (.cons y ys), by simp [JList.strElems]⟩

/-- A serialized value's head is not a closing delimiter. -/
theorem headIs_stringify_append (j : Json) (t : Str) (d : Char)
    (hd : d = ']' ∨ d = '\x7d') : headIs (j.stringify ++ t) d = false := by
  obtain ⟨c, t', hct, hc⟩ := stringify_head j
  have hcd : c ≠ d := by
    rcases hd with rfl | rfl <;>
      rcases hc with h | h | h | h | h | h | h | h <;>
        first
          | (subst h; decide)
          | (intro he; subst he; exact absurd h (by decide))
  simp [hct, headIs, hcd]

/-- Every JSON value has positive parser measure. -/
theorem Json.msize_pos (j : Json) : 1 ≤ j.msize := by
  cases j <;> simp [Json.msize]

/-- One-step unfolding of the value parser on a cons input. -/
theorem parseF_succ_val_cons (f : Nat) (c : Char) (rest : Str) :
    parseF (f + 1) .val (c :: rest) =
      (if c.isDigit then (parseNatNum (c :: rest)).map (fun p => .val (.num (p.1 : Int)) p.2)
      else if c = '-' then (parseNatNum rest).map (fun p => .val (.num (-(p.1 : Int))) p.2)
      else if c = '"' then (parseStringBody rest).map (fun p => .val (.str p.1) p.2)
      else if c = 'n' then (expectChars "ull".data rest).map (fun r => .val .null r)
      else if c = 't' then (expectChars "rue".data rest).map (fun r => .val (.bool true) r)
      else if c = 'f' then (expectChars "alse".data rest).map (fun r => .val (.bool false) r)
      else if c = '[' then
        if headIs rest ']' then some (.val (.arr .nil) rest.tail)
        else
          match parseF f .elems rest with
          | some (.elems vs r) => some (.val (.arr vs) r)
          | _ => none
      else if c = '\x7b' then
        if headIs rest '\x7d' then some (.val (.obj .nil) rest.tail)
        else
          match parseF f .fields rest with
          | some (.fields fs r) => some (.val (.obj fs) r)
          | _ => none
      else none) := rfl

/-- Value parser on a digit head. -/
theorem parseF_succ_val_digit {c : Char} (f : Nat) (rest : Str) (h : c.isDigit = true) :
    parseF (f + 1) .val (c :: rest) =
      (parseNatNum (c :: rest)).map (fun p => .val (.num (p.1 : Int)) p.2) := by
  rw [parseF_succ_val_cons, if_pos h]

/-- Value parser on an opening bracket. -/
theorem parseF_succ_val_lbracket (f : Nat) (rest : Str) :
    parseF (f + 1) .val ('[' :: rest) =
      (if headIs rest ']' then some (.val (.arr .nil) rest.tail)
      else
        match parseF f .elems rest with
        | some (.elems vs r) => some (.val (.arr vs) r)
        | _ => none) := rfl

/-- Value parser on an opening brace. -/
theorem parseF_succ_val_lbrace (f : Nat) (rest : Str) :
    parseF (f + 1) .val ('\x7b' :: rest) =
      (if headIs rest '\x7d' then some (.val (.obj .nil) rest.tail)
      else
        match parseF f .fields rest with
        | some (.fields fs r) => some (.val (.obj fs) r)
        | _ => none) := rfl

/-- One-step unfolding of the element-list parser. -/
theorem parseF_succ_elems (f : Nat) (input : Str) :
    parseF (f + 1) .elems input =
      (match parseF f .val input with
      | some (.val v r1) =>
        (match r1 with
         | ',' :: r2 =>
           (match parseF f .elems r2 with
            | some (.elems vs r3) => some (.elems (.cons v vs) r3)
            | _ => none)
         | ']' :: r2 => some (.elems (.cons v .nil) r2)
         | _ => none)
      | _ => none) := rfl

/-- One-step unfolding of the field-list parser on a quote head. -/
theorem parseF_succ_fields_quote (f : Nat) (rest : Str) :
    parseF (f + 1) .fields ('"' :: rest) =
      (match parseStringBody rest with
      | some (k, r1) =>
        (match r1 with
         | ':' :: r2 =>
           (match parseF f .val r2 with
            | some (.val v r3) =>
              (match r3 with
               | ',' :: r4 =>
                 (match parseF f .fields r4 with
                  | some (.fields fs r5) => some (.fields (.cons k v fs) r5)
                  | _ => none)
               | '\x7d' :: r4 => some (.fields (.cons k v .nil) r4)
               | _ => none)
            | _ => none)
         | _ => none)
      | none => none) := rfl

/-- The parser inverts the serializer: with enough fuel, a well-formed
value's serialization (followed by a non-digit remainder) parses back to
the value, and likewise for nonempty element and field lists up to their
closing delimiter. -/
theorem parseF_roundtrip : ∀ fuel : Nat,
    (∀ (j : Json) (r : Str), j.msize ≤ fuel → j.wf = true → noDigitHead r = true →
        parseF fuel .val (j.stringify ++ r) = some (.val j r))
    ∧ (∀ (l : JList) (r : Str), l ≠ .nil → l.msizeL ≤ fuel → l.wfL = true →
        parseF fuel .elems (l.strElems ++ ']' :: r) = some (.elems l r))
    ∧ (∀ (fs : JFields) (r : Str), fs ≠ .nil → fs.msizeF ≤ fuel → fs.wfF = true →
        parseF fuel .fields (fs.strFields ++ '\x7d' :: r) = some (.fields fs r)) := by
  intro fuel
  induction fuel with
  | zero =>
    refine ⟨fun j r hm _ _ => absurd hm (by have := Json.msize_pos j; omega),
            fun l r hl hm _ => ?_, fun fs r hf hm _ => ?_⟩
    · cases l with
      | nil => exact absurd rfl hl
      | cons x xs => simp [JList.msizeL] at hm
    · cases fs with
      | nil => exact absurd rfl hf
      | cons k v fs' => simp [JFields.msizeF] at hm
  | succ f ih =>
    obtain ⟨ihv, ihe, ihf⟩ := ih
    refine ⟨?_, ?_, ?_⟩
    · -- value mode
      intro j r hm hwf hr
      cases j with
      | null => exact rfl
      | bool b => cases b with
        | false => exact rfl
        | true => exact rfl
      | num n =>
        by_cases hn : n < 0
        · have hdec : Json.stringify (.num n) = '-' :: natChars n.natAbs := by
            simp [Json.stringify, intChars, hn]
          have hneg : -(n.natAbs : Int) = n := by omega
          rw [hdec, List.cons_append]
          rw [show parseF (f + 1) .val ('-' :: (natChars n.natAbs ++ r)) =
            (parseNatNum (natChars n.natAbs ++ r)).map
              (fun p => .val (.num (-(p.1 : Int))) p.2) from rfl]
          rw [parseNatNum_natChars _ _ hr]
          show some (PRes.val (.num (-(n.natAbs : Int))) r) = some (PRes.val (.num n) r)
          rw [hneg]
        · have hdec : Json.stringify (.num n) = natChars n.toNat := by
            simp [Json.stringify, intChars, hn]
          obtain ⟨hne, hall, -⟩ := natChars_spec n.toNat
          obtain ⟨c, t, hct⟩ := List.exists_cons_of_ne_nil hne
          have hcdig : c.isDigit = true := List.all_eq_true.mp hall c (by simp [hct])
          have htn : ((n.toNat : Nat) : Int) = n := by omega
          rw [hdec, hct, List.cons_append, parseF_succ_val_digit f _ hcdig,
            show c :: (t ++ r) = natChars n.toNat ++ r by rw [hct, List.cons_append],
            parseNatNum_natChars _ _ hr]
          simp [htn]
      | str s =>
        have hws : s.all wfChar = true := by simpa [Json.wf] using hwf
        rw [show Json.stringify (.str s) ++ r = '"' :: (s ++ '"' :: r) by
          simp [Json.stringify],
          show parseF (f + 1) .val ('"' :: (s ++ '"' :: r)) =
            (parseStringBody (s ++ '"' :: r)).map (fun p => .val (.str p.1) p.2) from rfl,
          parseStringBody_append s r hws]
        rfl
      | arr xs =>
        cases xs with
        | nil => exact rfl
        | cons x xs' =>
          have hm' : (JList.cons x xs').msizeL ≤ f := by
            simp [Json.msize] at hm; simp [JList.msizeL] at hm ⊢; omega
          have hw' : (JList.cons x xs').wfL = true := by simpa [Json.wf] using hwf
          have hassoc : Json.stringify (.arr (.cons x xs')) ++ r
              = '[' :: (JList.strElems (.cons x xs') ++ ']' :: r) := by
            simp [Json.stringify]
          have hhead : headIs (JList.strElems (.cons x xs') ++ ']' :: r) ']' = false := by
            obtain ⟨t, ht⟩ := strElems_cons_decomp x xs'
            rw [ht, List.append_assoc]
            exact headIs_stringify_append x _ _ (Or.inl rfl)
          rw [hassoc, parseF_succ_val_lbracket, hhead]
          simp [ihe (.cons x xs') r (by simp) hm' hw']
      | obj fs =>
        cases fs with
        | nil => exact rfl
        | cons k v fs' =>
          have hm' : (JFields.cons k v fs').msizeF ≤ f := by
            simp [Json.msize] at hm; simp [JFields.msizeF] at hm ⊢; omega
          have hw' : (JFields.cons k v fs').wfF = true := by simpa [Json.wf] using hwf
          have hassoc : Json.stringify (.obj (.cons k v fs')) ++ r
              = '\x7b' :: (JFields.strFields (.cons k v fs') ++ '\x7d' :: r) := by
            simp [Json.stringify]
          have hhead : headIs (JFields.strFields (.cons k v fs') ++ '\x7d' :: r) '\x7d' = false := by
            cases fs' <;> simp [JFields.strFields, headIs]
          rw [hassoc, parseF_succ_val_lbrace, hhead]
          simp [ihf (.cons k v fs') r (by simp) hm' hw']
    · -- element-list mode
      intro l r hl hm hwl
      cases l with
      | nil => exact absurd rfl hl
      | cons x xs =>
        have hmx : x.msize ≤ f := by simp [JList.msizeL] at hm; omega
        have hwlx : x.wf = true ∧ xs.wfL = true := by
          simpa only [JList.wfL, Bool.and_eq_true] using hwl
        have hwx := hwlx.1
        have hwxs := hwlx.2
        cases xs with
        | nil =>
          have hv := ihv x (']' :: r) hmx hwx rfl
          rw [show JList.strElems (.cons x .nil) = x.stringify from rfl,
            parseF_succ_elems, hv]
          rfl
        | cons y ys =>
          have hmy : (JList.cons y ys).msizeL ≤ f := by
            simp [JList.msizeL] at hm ⊢; omega
          have hv := ihv x (',' :: (JList.strElems (.cons y ys) ++ ']' :: r)) hmx hwx rfl
          have he := ihe (.cons y ys) r (by simp) hmy hwxs
          rw [show JList.strElems (.cons x (.cons y ys)) ++ ']' :: r
              = x.stringify ++ (',' :: (JList.strElems (.cons y ys) ++ ']' :: r)) by
            simp [JList.strElems],
            parseF_succ_elems, hv]
          simp [he]
    · -- field-list mode
      intro fs r hf hm hwf
      cases fs with
      | nil => exact absurd rfl hf
      | cons k v fs' =>
        have hmv : v.msize ≤ f := by simp [JFields.msizeF] at hm; omega
        have hwall : k.all wfChar = true ∧ v.wf = true ∧ fs'.wfF = true := by
          simpa only [JFields.wfF, Bool.and_eq_true, and_assoc] using hwf
        have hwk := hwall.1
        have hwv := hwall.2.1
        have hwfs := hwall.2.2
        cases fs' with
        | nil =>
          have hv := ihv v ('\x7d' :: r) hmv hwv rfl
          rw [show JFields.strFields (.cons k v .nil) ++ '\x7d' :: r
              = '"' :: (k ++ '"' :: ':' :: (v.stringify ++ '\x7d' :: r)) by
            simp [JFields.strFields],
            parseF_succ_fields_quote,
            parseStringBody_append k _ hwk]
          simp [hv]
        | cons k2 v2 fs2 =>
          have hmfs : (JFields.cons k2 v2 fs2).msizeF ≤ f := by
            simp [JFields.msizeF] at hm ⊢; omega
          have hv := ihv v (',' :: (JFields.strFields (.cons k2 v2 fs2) ++ '\x7d' :: r)) hmv hwv rfl
          have hfld := ihf (.cons k2 v2 fs2) r (by simp) hmfs hwfs
          rw [show JFields.strFields (.cons k v (.cons k2 v2 fs2)) ++ '\x7d' :: r
              = '"' :: (k ++ '"' :: ':' :: (v.stringify ++
                  (',' :: (JFields.strFields (.cons k2 v2 fs2) ++ '\x7d' :: r)))) by
            simp [JFields.strFields],
            parseF_succ_fields_quote,
            parseStringBody_append k _ hwk]
          simp [hv, hfld]

/-- The parser measure is bounded by the serialized length. -/
theorem msize_le_strLen : ∀ n : Nat,
    (∀ j : Json, j.msize ≤ n → j.msize ≤ j.stringify.length)
    ∧ (∀ l : JList, l.msizeL ≤ n → l.msizeL ≤ l.strElems.length + 1)
    ∧ (∀ fs : JFields, fs.msizeF ≤ n → fs.msizeF ≤ fs.strFields.length + 1) := by
  intro n
  induction n with
  | zero =>
    refine ⟨fun j hm => absurd hm (by have := Json.msize_pos j; omega),
            fun l hm => ?_, fun fs hm => ?_⟩
    · cases l with
      | nil => simp [JList.msizeL]
      | cons x xs => simp [JList.msizeL] at hm
    · cases fs with
      | nil => simp [JFields.msizeF]
      | cons k v fs' => simp [JFields.msizeF] at hm
  | succ n ih =>
    obtain ⟨ihv, ihe, ihf⟩ := ih
    refine ⟨?_, ?_, ?_⟩
    · intro j hm
      cases j with
      | null => simp [Json.msize, Json.stringify]
      | bool b => cases b <;> simp [Json.msize, Json.stringify]
      | num m =>
        have h1 : 1 ≤ (intChars m).length := by
          by_cases hneg : m < 0
          · simp [intChars, hneg]
          · have hne := (natChars_spec m.toNat).1
            have hpos : 0 < (natChars m.toNat).length := List.length_pos.mpr hne
            simpa [intChars, hneg] using hpos
        simpa [Json.msize, Json.stringify] using h1
      | str s => simp [Json.msize, Json.stringify]
      | arr xs =>
        have hm' : xs.msizeL ≤ n := by simp [Json.msize] at hm; omega
        have := ihe xs hm'
        simp [Json.msize, Json.stringify] at *
        omega
      | obj fs =>
        have hm' : fs.msizeF ≤ n := by simp [Json.msize] at hm; omega
        have := ihf fs hm'
        simp [Json.msize, Json.stringify] at *
        omega
    · intro l hm
      cases l with
      | nil => simp [JList.msizeL]
      | cons x xs =>
        have hmx : x.msize ≤ n := by simp [JList.msizeL] at hm; omega
        have hx := ihv x hmx
        cases xs with
        | nil =>
          simp [JList.msizeL, JList.strElems] at *
          omega
        | cons y ys =>
          have hmy : (JList.cons y ys).msizeL ≤ n := by
            simp [JList.msizeL] at hm ⊢; omega
          have hy := ihe _ hmy
          simp [JList.msizeL, JList.strElems] at *
          omega
    · intro fs hm
      cases fs with
      | nil => simp [JFields.msizeF]
      | cons k v fs' =>
        have hmv : v.msize ≤ n := by simp [JFields.msizeF] at hm; omega
        have hv := ihv v hmv
        cases fs' with
        | nil =>
          simp [JFields.msizeF, JFields.strFields] at *
          omega
        | cons k2 v2 fs2 =>
          have hmf : (JFields.cons k2 v2 fs2).msizeF ≤ n := by
            simp [JFields.msizeF] at hm ⊢; omega
          have hf := ihf _ hmf
          simp [JFields.msizeF, JFields.strFields] at *
          omega

/-- On the well-formed fragment, the modelled `JSON.parse` inverts the
modelled `JSON.stringify`. -/
theorem jsonParse_stringify (j : Json) (h : j.wf = true) :
    jsonParse j.stringify = some j := by
  have hm : j.msize ≤ j.stringify.length + 1 := by
    have := (msize_le_strLen j.msize).1 j le_rfl
    omega
  have hp := (parseF_roundtrip (j.stringify.length + 1)).1 j [] hm h rfl
  rw [List.append_nil] at hp
  simp [jsonParse, hp]

/-- Digit strings are ASCII. -/
theorem natChars_ascii : ∀ fuel n, n < fuel → (natCharsAux fuel n).all asciiChar = true := by
  intro fuel
  induction fuel with
  | zero => intro n h; omega
  | succ f ih =>
    intro n h
    by_cases h10 : n < 10
    · simp [natCharsAux, h10, asciiChar, digitChar_toNat h10]
      omega
    · have hdiv : n / 10 < f := by omega
      have hmod : n % 10 < 10 := Nat.mod_lt _ (by omega)
      simp [natCharsAux, h10, List.all_append, ih _ hdiv, asciiChar, digitChar_toNat hmod]
      omega

/-- Serializations of well-formed JSON values are ASCII. -/
theorem stringify_ascii : ∀ n : Nat,
    (∀ j : Json, j.msize ≤ n → j.wf = true → j.stringify.all asciiChar = true)
    ∧ (∀ l : JList, l.msizeL ≤ n → l.wfL = true → l.strElems.all asciiChar = true)
    ∧ (∀ fs : JFields, fs.msizeF ≤ n → fs.wfF = true → fs.strFields.all asciiChar = true) := by
  intro n
  induction n with
  | zero =>
    refine ⟨fun j hm _ => absurd hm (by have := Json.msize_pos j; omega),
            fun l hm _ => ?_, fun fs hm _ => ?_⟩
    · cases l with
      | nil => simp [JList.strElems]
      | cons x xs => simp [JList.msizeL] at hm
    · cases fs with
      | nil => simp [JFields.strFields]
      | cons k v fs' => simp [JFields.msizeF] at hm
  | succ n ih =>
    obtain ⟨ihv, ihe, ihf⟩ := ih
    refine ⟨?_, ?_, ?_⟩
    · intro j hm hwf
      cases j with
      | null => decide
      | bool b => cases b <;> decide
      | num m =>
        by_cases hneg : m < 0
        · simpa [Json.stringify, intChars, hneg, natChars, asciiChar] using
            natChars_ascii _ m.natAbs (Nat.lt_succ_self _)
        · simpa [Json.stringify, intChars, hneg, natChars] using
            natChars_ascii _ m.toNat (Nat.lt_succ_self _)
      | str s =>
        have hws : s.all wfChar = true := by simpa [Json.wf] using hwf
        have : s.all asciiChar = true := by
          rw [List.all_eq_true] at hws ⊢
          intro c hc
          have := hws c hc
          simp [wfChar] at this
          simp [asciiChar, this.1.1]
        simp [Json.stringify, List.all_append, this]
        decide
      | arr xs =>
        have hm' : xs.msizeL ≤ n := by simp [Json.msize] at hm; omega
        have hw' : xs.wfL = true := by simpa [Json.wf] using hwf
        simp [Json.stringify, List.all_append, ihe xs hm' hw']
        decide
      | obj fs =>
        have hm' : fs.msizeF ≤ n := by simp [Json.msize] at hm; omega
        have hw' : fs.wfF = true := by simpa [Json.wf] using hwf
        simp [Json.stringify, List.all_append, ihf fs hm' hw']
        decide
    · intro l hm hwl
      cases l with
      | nil => decide
      | cons x xs =>
        have hmx : x.msize ≤ n := by simp [JList.msizeL] at hm; omega
        have hwlx : x.wf = true ∧ xs.wfL = true := by
          simpa only [JList.wfL, Bool.and_eq_true] using hwl
        cases xs with
        | nil => simpa [JList.strElems] using ihv x hmx hwlx.1
        | cons y ys =>
          have hmy : (JList.cons y ys).msizeL ≤ n := by
            simp [JList.msizeL] at hm ⊢; omega
          simp [JList.strElems, List.all_append, ihv x hmx hwlx.1,
            ihe _ hmy hwlx.2]
          decide
    · intro fs hm hwf
      cases fs with
      | nil => decide
      | cons k v fs' =>
        have hmv : v.msize ≤ n := by simp [JFields.msizeF] at hm; omega
        have hwall : k.all wfChar = true ∧ v.wf = true ∧ fs'.wfF = true := by
          simpa only [JFields.wfF, Bool.and_eq_true, and_assoc] using hwf
        have hk : k.all asciiChar = true := by
          rw [List.all_eq_true] at hwall ⊢
          · intro c hc
            have := hwall.1 c hc
            simp [wfChar] at this
            simp [asciiChar, this.1.1]
        cases fs' with
        | nil =>
          simp [JFields.strFields, List.all_append, hk, ihv v hmv hwall.2.1]
          decide
        | cons k2 v2 fs2 =>
          have hmf : (JFields.cons k2 v2 fs2).msizeF ≤ n := by
            simp [JFields.msizeF] at hm ⊢; omega
          simp [JFields.strFields, List.all_append, hk, ihv v hmv hwall.2.1,
            ihf _ hmf hwall.2.2]
          decide

/-! ## Supporting lemmas: base64url and text codecs -/

/-- Decoding an alphabet character recovers its 6-bit value. -/
theorem b64Val_b64Char {k : Nat} (h : k < 64) : b64Val (b64Char k) = some k := by
  interval_cases k <;> decide

/-- Base64url decoding inverts encoding on byte lists. -/
theorem b64urlDecode_encode : ∀ bs : List Nat, (∀ b ∈ bs, b < 256) →
    b64urlDecode (b64urlEncode bs) = some bs := by
  intro bs
  induction bs using b64urlEncode.induct with
  | case1 => intro _; rfl
  | case2 a =>
    intro h
    have ha : a < 256 := h a (by simp)
    have h1 := b64Val_b64Char (k := a / 4) (by omega)
    have h2 := b64Val_b64Char (k := a % 4 * 16) (by omega)
    simp [b64urlEncode, b64urlDecode, h1, h2]
    omega
  | case3 a b =>
    intro h
    have ha : a < 256 := h a (by simp)
    have hb : b < 256 := h b (by simp)
    have h1 := b64Val_b64Char (k := a / 4) (by omega)
    have h2 := b64Val_b64Char (k := a % 4 * 16 + b / 16) (by omega)
    have h3 := b64Val_b64Char (k := b % 16 * 4) (by omega)
    simp [b64urlEncode, b64urlDecode, h1, h2, h3]
    constructor <;> omega
  | case4 a b c rest ih =>
    intro h
    have ha : a < 256 := h a (by simp)
    have hb : b < 256 := h b (by simp)
    have hc : c < 256 := h c (by simp)
    have h1 := b64Val_b64Char (k := a / 4) (by omega)
    have h2 := b64Val_b64Char (k := a % 4 * 16 + b / 16) (by omega)
    have h3 := b64Val_b64Char (k := b % 16 * 4 + c / 64) (by omega)
    have h4 := b64Val_b64Char (k := c % 64) (by omega)
    have hrest := ih (fun x hx => h x (by simp [hx]))
    cases hrec : b64urlEncode rest with
    | nil =>
      rw [hrec] at hrest
      simp [b64urlEncode, b64urlDecode, hrec, h1, h2, h3, h4, hrest]
      refine ⟨?_, ?_, ?_⟩ <;> omega
    | cons e es =>
      rw [hrec] at hrest
      simp only [b64urlEncode, hrec]
      simp [b64urlDecode, h1, h2, h3, h4, hrest]
      refine ⟨?_, ?_, ?_⟩ <;> omega

/-- Every character of an encoding is an alphabet character. -/
theorem mem_b64urlEncode : ∀ bs : List Nat, (∀ b ∈ bs, b < 256) →
    ∀ ch ∈ b64urlEncode bs, ∃ k, k < 64 ∧ ch = b64Char k := by
  intro bs
  induction bs using b64urlEncode.induct with
  | case1 => intro _ ch hch; simp [b64urlEncode] at hch
  | case2 a =>
    intro h ch hch
    have ha : a < 256 := h a (by simp)
    simp [b64urlEncode] at hch
    rcases hch with rfl | rfl
    · exact ⟨a / 4, by omega, rfl⟩
    · exact ⟨a % 4 * 16, by omega, rfl⟩
  | case3 a b =>
    intro h ch hch
    have ha : a < 256 := h a (by simp)
    have hb : b < 256 := h b (by simp)
    simp [b64urlEncode] at hch
    rcases hch with rfl | rfl | rfl
    · exact ⟨a / 4, by omega, rfl⟩
    · exact ⟨a % 4 * 16 + b / 16, by omega, rfl⟩
    · exact ⟨b % 16 * 4, by omega, rfl⟩
  | case4 a b c rest ih =>
    intro h ch hch
    have ha : a < 256 := h a (by simp)
    have hb : b < 256 := h b (by simp)
    have hc : c < 256 := h c (by simp)
    simp [b64urlEncode] at hch
    rcases hch with rfl | rfl | rfl | rfl | hmem
    · exact ⟨a / 4, by omega, rfl⟩
    · exact ⟨a % 4 * 16 + b / 16, by omega, rfl⟩
    · exact ⟨b % 16 * 4 + c / 64, by omega, rfl⟩
    · exact ⟨c % 64, by omega, rfl⟩
    · exact ih (fun x hx => h x (by simp [hx])) ch hmem

/-- Alphabet characters are not dots, not whitespace, ASCII. -/
theorem b64Char_props {k : Nat} (h : k < 64) :
    b64Char k ≠ '.' ∧ isWs (b64Char k) = false ∧ asciiChar (b64Char k) = true := by
  interval_cases k <;> exact ⟨by decide, by decide, by decide⟩

/-- Text/byte conversion roundtrip. -/
theorem bytesToText_textToBytes (s : Str) : bytesToText (textToBytes s) = s := by
  simp [bytesToText, textToBytes, List.map_map, Function.comp_def, Char.ofNat_toNat]

/-- ASCII text encodes to bytes below 256. -/
theorem textToBytes_lt (s : Str) (h : s.all asciiChar = true) :
    ∀ b ∈ textToBytes s, b < 256 := by
  intro b hb
  simp [textToBytes] at hb
  obtain ⟨c, hc, rfl⟩ := hb
  have := List.all_eq_true.mp h c hc
  simp [asciiChar] at this
  omega

/-- `decodeText` inverts `encodeText` on ASCII text. -/
theorem decodeText_encodeText (s : Str) (h : s.all asciiChar = true) :
    b64urlDecodeText (b64urlEncodeText s) = some s := by
  simp [b64urlDecodeText, b64urlEncodeText,
    b64urlDecode_encode (textToBytes s) (textToBytes_lt s h),
    bytesToText_textToBytes]

/-- Characters of an ASCII text's encoding: in the alphabet. -/
theorem mem_encodeText (s : Str) (h : s.all asciiChar = true) :
    ∀ ch ∈ b64urlEncodeText s, ch ≠ '.' ∧ isWs ch = false := by
  intro ch hch
  obtain ⟨k, hk, rfl⟩ :=
    mem_b64urlEncode (textToBytes s) (textToBytes_lt s h) ch hch
  exact ⟨(b64Char_props hk).1, (b64Char_props hk).2.1⟩

/-! ## Supporting lemmas: splitting and trimming -/

/-- Splitting a dot-free text yields a single segment. -/
theorem splitOnDot_no_dot : ∀ s : Str, (∀ c ∈ s, c ≠ '.') → splitOnDot s = [s] := by
  intro s
  induction s with
  | nil => intro _; rfl
  | cons c t ih =>
    intro h
    have hc : ¬ (c = '.') := h c (by simp)
    simp [splitOnDot, hc, ih (fun x hx => h x (by simp [hx]))]

/-- Splitting peels a dot-free leading segment. -/
theorem splitOnDot_append : ∀ a r : Str, (∀ c ∈ a, c ≠ '.') →
    splitOnDot (a ++ '.' :: r) = a :: splitOnDot r := by
  intro a
  induction a with
  | nil => intro r _; simp [splitOnDot]
  | cons c t ih =>
    intro r h
    have hc : ¬ (c = '.') := h c (by simp)
    have hrec := ih r (fun x hx => h x (by simp [hx]))
    simp [splitOnDot, hc, hrec]

/-- Trimming text with no whitespace is the identity. -/
theorem jsTrim_eq_self (s : Str) (h : ∀ c ∈ s, isWs c = false) : jsTrim s = s := by
  have h1 : s.dropWhile isWs = s := by
    cases s with
    | nil => rfl
    | cons c t => simp [List.dropWhile_cons, h c (by simp)]
  have h2 : s.reverse.dropWhile isWs = s.reverse := by
    cases hrev : s.reverse with
    | nil => rfl
    | cons c t =>
      have hc : c ∈ s := by
        rw [← List.mem_reverse, hrev]; simp
      simp [List.dropWhile_cons, h c hc]
  simp [jsTrim, h1, h2]

/-! ## Supporting lemmas: token codec and registry -/

/-- Parsing a token assembled from well-formed header/claims JSON and raw
signature bytes recovers all components, with `signed` the verbatim
`header.claims` prefix. -/
theorem parse_assembled (hJ cJ : Json) (sig : List Nat)
    (hwH : hJ.wf = true) (hwC : cJ.wf = true) (hsig : ∀ b ∈ sig, b < 256) :
    parse (b64urlEncodeText hJ.stringify ++
        ('.' :: (b64urlEncodeText cJ.stringify ++ ('.' :: b64urlEncode sig))))
      = .ok ⟨hJ, cJ, sig,
          b64urlEncodeText hJ.stringify ++ '.' :: b64urlEncodeText cJ.stringify⟩ := by
  have haH : hJ.stringify.all asciiChar = true :=
    (stringify_ascii hJ.msize).1 hJ le_rfl hwH
  have haC : cJ.stringify.all asciiChar = true :=
    (stringify_ascii cJ.msize).1 cJ le_rfl hwC
  have hallws : ∀ ch ∈ (b64urlEncodeText hJ.stringify ++
      ('.' :: (b64urlEncodeText cJ.stringify ++ ('.' :: b64urlEncode sig)))),
      isWs ch = false := by
    intro ch hch
    rcases List.mem_append.mp hch with h | h
    · exact (mem_encodeText _ haH ch h).2
    · rcases List.mem_cons.mp h with rfl | h
      · rfl
      · rcases List.mem_append.mp h with h | h
        · exact (mem_encodeText _ haC ch h).2
        · rcases List.mem_cons.mp h with rfl | h
          · rfl
          · obtain ⟨k, hk, rfl⟩ := mem_b64urlEncode sig hsig ch h
            exact (b64Char_props hk).2.1
  have hsplit : splitOnDot (b64urlEncodeText hJ.stringify ++
      ('.' :: (b64urlEncodeText cJ.stringify ++ ('.' :: b64urlEncode sig))))
        = [b64urlEncodeText hJ.stringify, b64urlEncodeText cJ.stringify, b64urlEncode sig] := by
    rw [splitOnDot_append _ _ (fun ch hch => (mem_encodeText _ haH ch hch).1),
      splitOnDot_append _ _ (fun ch hch => (mem_encodeText _ haC ch hch).1),
      splitOnDot_no_dot _ (fun ch hch => by
        obtain ⟨k, hk, rfl⟩ := mem_b64urlEncode sig hsig ch hch
        exact (b64Char_props hk).1)]
  simp only [parse, jsTrim_eq_self _ hallws, hsplit,
    decodeText_encodeText _ haH, decodeText_encodeText _ haC,
    jsonParse_stringify _ hwH, jsonParse_stringify _ hwC,
    b64urlDecode_encode sig hsig]

/-- The registry only knows `RS256` and `ES256`. -/
theorem algorithms_known {alg : Str} {p : AlgParams} (h : algorithms alg = some p) :
    alg = "RS256".data ∨ alg = "ES256".data := by
  unfold algorithms at h
  split_ifs at h with h1 h2
  · exact Or.inl h1
  · exact Or.inr h2

/-- Registered algorithm identifiers are in the well-formed fragment. -/
theorem algorithms_wf {alg : Str} {p : AlgParams} (h : algorithms alg = some p) :
    alg.all wfChar = true := by
  rcases algorithms_known h with rfl | rfl <;> decide

/-- The temporal checks pass when `now` lies in `[iat, exp)` (numeric
claims; a zero `exp` or `iat` is skipped anyway). -/
theorem checkTemporal_ok (claims : Json) (nowMs : Int) (e i : Int)
    (hexp : claims.get ("exp".data) = some (.num e))
    (hiat : claims.get ("iat".data) = some (.num i))
    (h1 : 1000 * i ≤ nowMs) (h2 : nowMs < 1000 * e) :
    checkTemporal claims nowMs = .ok () := by
  have hnotexp : ¬ (1000 * e < nowMs) := by omega
  have hnotiat : ¬ (1000 * i > nowMs) := by omega
  by_cases he0 : e = 0
  · by_cases hi0 : i = 0
    · simp [checkTemporal, hexp, hiat, Json.truthyOpt, Json.truthy, Json.asNum, he0, hi0]
    · simp [checkTemporal, hexp, hiat, Json.truthyOpt, Json.truthy, Json.asNum, he0, hi0,
        hnotiat]
  · by_cases hi0 : i = 0
    · simp [checkTemporal, hexp, hiat, Json.truthyOpt, Json.truthy, Json.asNum, he0, hi0,
        hnotexp]
    · simp [checkTemporal, hexp, hiat, Json.truthyOpt, Json.truthy, Json.asNum, he0, hi0,
        hnotexp, hnotiat]

/-! ## Supporting lemmas: verification loop steps -/

/-- A candidate whose algorithm is not in the registry aborts the scan
with `unknownAlgorithm` (before the match test). -/
theorem verifyLoop_unknown (c : SubtleCrypto) (p : ParsedToken) (nowMs : Int)
    (key : KeyRecord) (rest : List KeyRecord) (halg : algorithms key.alg = none) :
    verifyLoop c p nowMs (key :: rest) = (.error (.unknownAlgorithm key.alg), []) := by
  simp only [verifyLoop, halg]

/-- A registered, non-matching candidate is skipped silently. -/
theorem verifyLoop_skip (c : SubtleCrypto) (p : ParsedToken) (nowMs : Int)
    (key : KeyRecord) (rest : List KeyRecord) (params : AlgParams)
    (halg : algorithms key.alg = some params)
    (hnm : ¬ (looseEqOptStr (p.header.get ("kid".data)) key.kid = true
        ∧ looseEqStr (p.header.get ("alg".data)) key.alg = true)) :
    verifyLoop c p nowMs (key :: rest) = verifyLoop c p nowMs rest := by
  simp only [verifyLoop, halg]
  rw [if_pos hnm]

/-- A matching candidate whose cryptographic check fails aborts with
`invalidSignature`, its public handle being the only one checked. -/
theorem verifyLoop_invalid (c : SubtleCrypto) (p : ParsedToken) (nowMs : Int)
    (key : KeyRecord) (rest : List KeyRecord) (params : AlgParams)
    (halg : algorithms key.alg = some params)
    (hmk : looseEqOptStr (p.header.get ("kid".data)) key.kid = true)
    (hma : looseEqStr (p.header.get ("alg".data)) key.alg = true)
    (hval : c.verify params.signatureParams key.publicKey p.signature
        (textToBytes p.signed) = false) :
    verifyLoop c p nowMs (key :: rest) = (.error .invalidSignature, [key.publicKey]) := by
  simp only [verifyLoop, halg]
  rw [if_neg (not_not_intro ⟨hmk, hma⟩)]
  simp [hval]

/-- A matching candidate with a valid signature ends the scan at the
temporal checks, its public handle being the only one checked. -/
theorem verifyLoop_valid (c : SubtleCrypto) (p : ParsedToken) (nowMs : Int)
    (key : KeyRecord) (rest : List KeyRecord) (params : AlgParams)
    (halg : algorithms key.alg = some params)
    (hmk : looseEqOptStr (p.header.get ("kid".data)) key.kid = true)
    (hma : looseEqStr (p.header.get ("alg".data)) key.alg = true)
    (hval : c.verify params.signatureParams key.publicKey p.signature
        (textToBytes p.signed) = true) :
    verifyLoop c p nowMs (key :: rest) =
      (match checkTemporal p.claims nowMs with
       | .error err => (.error err, [key.publicKey])
       | .ok _ => (.ok p.claims, [key.publicKey])) := by
  simp only [verifyLoop, halg]
  rw [if_neg (not_not_intro ⟨hmk, hma⟩)]
  simp [hval]

/-! ## C1: round-trip verify ∘ create -/

/-- C1 (round-trip).  For a key record `K` carrying a private handle (and
a registry-known algorithm, as importer-produced records have), any
claims object `C` in the modelled JSON fragment, and a crypto subsystem
for which `K`'s public handle accepts `K`'s private-handle signatures
(with byte-valued output), verifying the token produced by `create` with
the same key succeeds and returns `C`, provided `now` lies within
`[C.iat, C.exp)` (epoch seconds; stated in exact milliseconds as
`1000*iat ≤ now < 1000*exp`). -/
theorem jwt_roundtrip_verify_create
    (c : SubtleCrypto) (K : KeyRecord) (C : Json) (nowMs : Int) (sk : Nat)
    (params : AlgParams) (tok : Str) (e i : Int)
    (hsk : K.privateKey = some sk)
    (halg : algorithms K.alg = some params)
    (hkid : ∀ kd, K.kid = some kd → kd.all wfChar = true)
    (hCwf : C.wf = true)
    (hver : ∀ data, c.verify params.signatureParams K.publicKey
        (c.sign params.signatureParams sk data) data = true)
    (hsig : ∀ data, ∀ b ∈ c.sign params.signatureParams sk data, b < 256)
    (hexp : C.get ("exp".data) = some (.num e))
    (hiat : C.get ("iat".data) = some (.num i))
    (hwin : 1000 * i ≤ nowMs ∧ nowMs < 1000 * e)
    (htok : create c (.one K) C = .ok tok) :
    verify c (.one K) tok nowMs = .ok C := by
  cases hK : K.kid with
  | none =>
    simp only [create, hK, halg, hsk, Except.ok.injEq, List.nil_append] at htok
    subst htok
    have hwH : (Json.obj (JFields.ofList [("alg".data, Json.str K.alg)])).wf = true := by
      have htag : ("alg".data.all wfChar) = true := by decide
      simp [Json.wf, JFields.ofList, JFields.wfF, algorithms_wf halg, htag]
    have hparse := parse_assembled (Json.obj (JFields.ofList [("alg".data, Json.str K.alg)])) C (c.sign params.signatureParams sk (textToBytes (b64urlEncodeText (Json.obj (JFields.ofList [("alg".data, Json.str K.alg)])).stringify ++ '.' :: b64urlEncodeText C.stringify))) hwH hCwf (hsig _)
    have hshape : (b64urlEncodeText (Json.obj (JFields.ofList [("alg".data, Json.str K.alg)])).stringify ++ '.' :: b64urlEncodeText C.stringify ++ '.' :: b64urlEncode (c.sign params.signatureParams sk (textToBytes (b64urlEncodeText (Json.obj (JFields.ofList [("alg".data, Json.str K.alg)])).stringify ++ '.' :: b64urlEncodeText C.stringify))))
        = (b64urlEncodeText (Json.obj (JFields.ofList [("alg".data, Json.str K.alg)])).stringify ++ ('.' :: (b64urlEncodeText C.stringify ++
            ('.' :: b64urlEncode (c.sign params.signatureParams sk (textToBytes (b64urlEncodeText (Json.obj (JFields.ofList [("alg".data, Json.str K.alg)])).stringify ++ '.' :: b64urlEncodeText C.stringify))))))) := by
      simp
    have hmk : looseEqOptStr ((Json.obj (JFields.ofList [("alg".data, Json.str K.alg)])).get ("kid".data)) K.kid = true := by
      rw [hK]; rfl
    have hma : looseEqStr ((Json.obj (JFields.ofList [("alg".data, Json.str K.alg)])).get ("alg".data)) K.alg = true := by
      simp [Json.get, JFields.ofList, JFields.lookupF, looseEqStr]
    have hloop := verifyLoop_valid c ⟨Json.obj (JFields.ofList [("alg".data, Json.str K.alg)]), C, c.sign params.signatureParams sk (textToBytes (b64urlEncodeText (Json.obj (JFields.ofList [("alg".data, Json.str K.alg)])).stringify ++ '.' :: b64urlEncodeText C.stringify)), b64urlEncodeText (Json.obj (JFields.ofList [("alg".data, Json.str K.alg)])).stringify ++ '.' :: b64urlEncodeText C.stringify⟩ nowMs K [] params halg hmk hma
      (hver (textToBytes (b64urlEncodeText (Json.obj (JFields.ofList [("alg".data, Json.str K.alg)])).stringify ++ '.' :: b64urlEncodeText C.stringify)))
    simp only [verify, verifyTraced, hshape, hparse, normalizeKeys]
    rw [hloop, checkTemporal_ok C nowMs e i hexp hiat hwin.1 hwin.2]
  | some kd =>
    simp only [create, hK, halg, hsk, Except.ok.injEq, List.cons_append, List.nil_append] at htok
    subst htok
    have hwH : (Json.obj (JFields.ofList
        [("kid".data, Json.str kd), ("alg".data, Json.str K.alg)])).wf = true := by
      have htag : ("alg".data.all wfChar) = true := by decide
      have htag2 : ("kid".data.all wfChar) = true := by decide
      simp [Json.wf, JFields.ofList, JFields.wfF, algorithms_wf halg, htag, htag2,
        hkid kd hK]
    have hparse := parse_assembled (Json.obj (JFields.ofList [("kid".data, Json.str kd), ("alg".data, Json.str K.alg)])) C (c.sign params.signatureParams sk (textToBytes (b64urlEncodeText (Json.obj (JFields.ofList [("kid".data, Json.str kd), ("alg".data, Json.str K.alg)])).stringify ++ '.' :: b64urlEncodeText C.stringify))) hwH hCwf (hsig _)
    have hshape : (b64urlEncodeText (Json.obj (JFields.ofList [("kid".data, Json.str kd), ("alg".data, Json.str K.alg)])).stringify ++ '.' :: b64urlEncodeText C.stringify ++ '.' :: b64urlEncode (c.sign params.signatureParams sk (textToBytes (b64urlEncodeText (Json.obj (JFields.ofList [("kid".data, Json.str kd), ("alg".data, Json.str K.alg)])).stringify ++ '.' :: b64urlEncodeText C.stringify))))
        = (b64urlEncodeText (Json.obj (JFields.ofList [("kid".data, Json.str kd), ("alg".data, Json.str K.alg)])).stringify ++ ('.' :: (b64urlEncodeText C.stringify ++
            ('.' :: b64urlEncode (c.sign params.signatureParams sk (textToBytes (b64urlEncodeText (Json.obj (JFields.ofList [("kid".data, Json.str kd), ("alg".data, Json.str K.alg)])).stringify ++ '.' :: b64urlEncodeText C.stringify))))))) := by
      simp
    have hmk : looseEqOptStr ((Json.obj (JFields.ofList [("kid".data, Json.str kd), ("alg".data, Json.str K.alg)])).get ("kid".data)) K.kid = true := by
      rw [hK]; simp [Json.get, JFields.ofList, JFields.lookupF, looseEqOptStr]
    have hma : looseEqStr ((Json.obj (JFields.ofList [("kid".data, Json.str kd), ("alg".data, Json.str K.alg)])).get ("alg".data)) K.alg = true := by
      simp [Json.get, JFields.ofList, JFields.lookupF, looseEqStr]
    have hloop := verifyLoop_valid c ⟨Json.obj (JFields.ofList [("kid".data, Json.str kd), ("alg".data, Json.str K.alg)]), C, c.sign params.signatureParams sk (textToBytes (b64urlEncodeText (Json.obj (JFields.ofList [("kid".data, Json.str kd), ("alg".data, Json.str K.alg)])).stringify ++ '.' :: b64urlEncodeText C.stringify)), b64urlEncodeText (Json.obj (JFields.ofList [("kid".data, Json.str kd), ("alg".data, Json.str K.alg)])).stringify ++ '.' :: b64urlEncodeText C.stringify⟩ nowMs K [] params halg hmk hma
      (hver (textToBytes (b64urlEncodeText (Json.obj (JFields.ofList [("kid".data, Json.str kd), ("alg".data, Json.str K.alg)])).stringify ++ '.' :: b64urlEncodeText C.stringify)))
    simp only [verify, verifyTraced, hshape, hparse, normalizeKeys]
    rw [hloop, checkTemporal_ok C nowMs e i hexp hiat hwin.1 hwin.2]

/-- C1 witness: the round-trip at a concrete key, claims and time. -/
theorem jwt_roundtrip_verify_create_witness :
    verify toyCrypto (.one wKey) wTokCreated 50000 = .ok wClaimsEI :=
  jwt_roundtrip_verify_create toyCrypto wKey wClaimsEI 50000 5
    ⟨⟨"ECDSA".data, none, some ("P-256".data)⟩, ⟨"ECDSA".data, some ("SHA-256".data), none⟩⟩
    wTokCreated 100 0
    rfl rfl
    (by intro kd h
        have h2 : some ("k".data) = some kd := h
        cases h2
        decide)
    rfl
    (fun _ => rfl)
    (by intro data b hb
        simp [toyCrypto] at hb
        omega)
    rfl rfl
    ⟨by decide, by decide⟩
    rfl

/-! ## C2: expiry boundary -/

/-- Behaviour of the temporal checks as a function of a truthy numeric
`exp`: the check fails with `expired` exactly for `now` strictly past
`exp`; otherwise `expired` is impossible, and the whole check passes
when `iat` is also satisfied. -/
theorem checkTemporal_exp_gate (claims : Json) (nowMs : Int) (e : Int)
    (hexp : claims.get ("exp".data) = some (.num e)) (hne : e ≠ 0) :
    (1000 * e < nowMs → checkTemporal claims nowMs = .error .expired)
    ∧ (¬ (1000 * e < nowMs) →
        checkTemporal claims nowMs ≠ .error .expired
        ∧ ((∀ i : Int, claims.get ("iat".data) = some (.num i) → 1000 * i ≤ nowMs) →
            checkTemporal claims nowMs = .ok ())) := by
  constructor
  · intro hlt
    simp [checkTemporal, hexp, Json.truthyOpt, Json.truthy, Json.asNum, hne, hlt]
  · intro hge
    cases hiat : claims.get ("iat".data) with
    | none =>
      constructor
      · simp [checkTemporal, hexp, hiat, Json.truthyOpt, Json.truthy, Json.asNum, hne, hge]
      · intro _
        simp [checkTemporal, hexp, hiat, Json.truthyOpt, Json.truthy, Json.asNum, hne, hge]
    | some j =>
      cases j with
      | num i =>
        by_cases hi0 : i = 0
        · constructor
          · simp [checkTemporal, hexp, hiat, Json.truthyOpt, Json.truthy, Json.asNum,
              hne, hge, hi0]
          · intro _
            simp [checkTemporal, hexp, hiat, Json.truthyOpt, Json.truthy, Json.asNum,
              hne, hge, hi0]
        · by_cases hgt : 1000 * i > nowMs
          · constructor
            · simp [checkTemporal, hexp, hiat, Json.truthyOpt, Json.truthy, Json.asNum,
                hne, hge, hi0, hgt]
            · intro hiok
              exact absurd (hiok i rfl) (by omega)
          · constructor
            · simp [checkTemporal, hexp, hiat, Json.truthyOpt, Json.truthy, Json.asNum,
                hne, hge, hi0, hgt]
            · intro _
              simp [checkTemporal, hexp, hiat, Json.truthyOpt, Json.truthy, Json.asNum,
                hne, hge, hi0, hgt]
      | null =>
        refine ⟨by simp [checkTemporal, hexp, hiat, Json.truthyOpt, Json.truthy,
          Json.asNum, hne, hge], fun _ => by simp [checkTemporal, hexp, hiat,
          Json.truthyOpt, Json.truthy, Json.asNum, hne, hge]⟩
      | bool b =>
        refine ⟨by cases b <;> simp [checkTemporal, hexp, hiat, Json.truthyOpt, Json.truthy,
          Json.asNum, hne, hge], fun _ => by cases b <;> simp [checkTemporal, hexp, hiat,
          Json.truthyOpt, Json.truthy, Json.asNum, hne, hge]⟩
      | str t =>
        refine ⟨by simp [checkTemporal, hexp, hiat, Json.truthyOpt, Json.truthy,
          Json.asNum, hne, hge], fun _ => by simp [checkTemporal, hexp, hiat,
          Json.truthyOpt, Json.truthy, Json.asNum, hne, hge]⟩
      | arr xs =>
        refine ⟨by simp [checkTemporal, hexp, hiat, Json.truthyOpt, Json.truthy,
          Json.asNum, hne, hge], fun _ => by simp [checkTemporal, hexp, hiat,
          Json.truthyOpt, Json.truthy, Json.asNum, hne, hge]⟩
      | obj fs =>
        refine ⟨by simp [checkTemporal, hexp, hiat, Json.truthyOpt, Json.truthy,
          Json.asNum, hne, hge], fun _ => by simp [checkTemporal, hexp, hiat,
          Json.truthyOpt, Json.truthy, Json.asNum, hne, hge]⟩

/-- C2 (amended).  With a matching registered candidate and a valid
signature, and claims containing a nonzero numeric `exp`, verification
fails with `Expired` exactly when `now` is strictly greater than `exp`
(epoch seconds, exact milliseconds scale: `1000*exp < now`); in
particular a token with `exp = now` succeeds (the original claim's
`now ≥ exp` boundary does not hold on the code), and `exp = now + 1`
succeeds (`iat` otherwise valid). -/
theorem verify_expired_iff_now_gt_exp
    (c : SubtleCrypto) (k : KeyRecord) (text : Str) (nowMs : Int) (p : ParsedToken)
    (params : AlgParams) (e : Int)
    (hp : parse text = .ok p)
    (halg : algorithms k.alg = some params)
    (hmk : looseEqOptStr (p.header.get ("kid".data)) k.kid = true)
    (hma : looseEqStr (p.header.get ("alg".data)) k.alg = true)
    (hval : c.verify params.signatureParams k.publicKey p.signature (textToBytes p.signed) = true)
    (hexp : p.claims.get ("exp".data) = some (.num e)) (hne : e ≠ 0) :
    (verify c (.one k) text nowMs = .error .expired ↔ 1000 * e < nowMs)
    ∧ ((¬ 1000 * e < nowMs) →
        (∀ i : Int, p.claims.get ("iat".data) = some (.num i) → 1000 * i ≤ nowMs) →
        verify c (.one k) text nowMs = .ok p.claims) := by
  have hloop := verifyLoop_valid c p nowMs k [] params halg hmk hma hval
  have hgate := checkTemporal_exp_gate p.claims nowMs e hexp hne
  have hv : verify c (.one k) text nowMs =
      (match checkTemporal p.claims nowMs with
       | .error err => ((.error err : Except JwtError Json), [k.publicKey])
       | .ok _ => (.ok p.claims, [k.publicKey])).1 := by
    simp [verify, verifyTraced, hp, normalizeKeys, hloop]
  constructor
  · constructor
    · intro h
      by_contra hn
      have hnexp := (hgate.2 hn).1
      cases hct : checkTemporal p.claims nowMs with
      | error err =>
        rw [hv, hct] at h
        simp only [Except.error.injEq] at h
        exact hnexp (by rw [hct, h])
      | ok u =>
        rw [hv, hct] at h
        exact Except.noConfusion h
    · intro hlt
      rw [hv, hgate.1 hlt]
  · intro hge hiat
    rw [hv, (hgate.2 hge).2 hiat]

/-- C2 counterexample: the claim demands that a token with `exp = now`
fail with `Expired`; the code's strict `exp < now` comparison instead
accepts it (here `exp = 100` s, `now = 100000` ms). -/
theorem verify_exp_eq_now_succeeds :
    verify toyCrypto (.one wKey) wTokExp100 100000 = .ok wClaimsExp100 := rfl

/-- C2 witness: strictly past `exp` (`now = 200` s, `exp = 100` s) the
verification fails with `Expired`. -/
theorem verify_expired_iff_now_gt_exp_witness :
    verify toyCrypto (.one wKey) wTokExp100 200000 = .error .expired :=
  ((verify_expired_iff_now_gt_exp toyCrypto wKey wTokExp100 200000 (wParsed wClaimsExp100)
      ⟨⟨"ECDSA".data, none, some ("P-256".data)⟩, ⟨"ECDSA".data, some ("SHA-256".data), none⟩⟩
      100 rfl rfl rfl rfl rfl rfl (by decide)).1).mpr (by decide)

/-! ## C3: candidate skipping -/

/-- C3 (amended).  A candidate whose `(kid, alg)` does not match the
header is skipped silently provided its `alg` is in the registry; but a
candidate whose `alg` is not in the registry makes the whole scan fail
with `UnknownAlgorithm` even when the candidate does not match (the
registry lookup precedes the match test). -/
theorem verify_candidate_scan_registry
    (c : SubtleCrypto) (text : Str) (nowMs : Int) (p : ParsedToken)
    (k : KeyRecord) (rest : List KeyRecord)
    (hp : parse text = .ok p) :
    (∀ params, algorithms k.alg = some params →
        ¬ (looseEqOptStr (p.header.get ("kid".data)) k.kid = true
            ∧ looseEqStr (p.header.get ("alg".data)) k.alg = true) →
        verifyTraced c (.many (k :: rest)) text nowMs
          = verifyTraced c (.many rest) text nowMs)
    ∧ (algorithms k.alg = none →
        verifyTraced c (.many (k :: rest)) text nowMs
          = (.error (.unknownAlgorithm k.alg), [])) := by
  constructor
  · intro params halg hnm
    simp [verifyTraced, hp, normalizeKeys, verifyLoop_skip c p nowMs k rest params halg hnm]
  · intro halg
    simp [verifyTraced, hp, normalizeKeys, verifyLoop_unknown c p nowMs k rest halg]

/-- C3 counterexample: a candidate with an unregistered algorithm does
not match the header's kid, yet scanning it raises `UnknownAlgorithm`
instead of skipping silently. -/
theorem verify_nonmatching_unknown_alg_raises :
    looseEqOptStr ((wParsed wClaimsExp100).header.get ("kid".data)) wKeyFoo.kid = false
    ∧ verify toyCrypto (.many [wKeyFoo]) wTokExp100 0
        = .error (.unknownAlgorithm ("FOO".data)) := ⟨rfl, rfl⟩

/-- C3 witness: a registered non-matching candidate is skipped silently;
an unregistered one aborts the scan. -/
theorem verify_candidate_scan_registry_witness :
    verifyTraced toyCrypto (.many [wKeyOther]) wTokExp100 0
        = verifyTraced toyCrypto (.many []) wTokExp100 0
    ∧ verifyTraced toyCrypto (.many [wKeyFoo]) wTokExp100 0
        = (.error (.unknownAlgorithm ("FOO".data)), []) :=
  ⟨(verify_candidate_scan_registry toyCrypto wTokExp100 0 (wParsed wClaimsExp100)
      wKeyOther [] rfl).1
      ⟨⟨"RSASSA-PKCS1-v1_5".data, some ("SHA-256".data), none⟩,
        ⟨"RSASSA-PKCS1-v1_5".data, none, none⟩⟩
      rfl (by decide),
   (verify_candidate_scan_registry toyCrypto wTokExp100 0 (wParsed wClaimsExp100)
      wKeyFoo [] rfl).2 rfl⟩

/-! ## C4: single cryptographic check on the first match -/

/-- A prefix of registered, non-matching candidates is skipped whole. -/
theorem verifyLoop_append_skip (c : SubtleCrypto) (p : ParsedToken) (nowMs : Int) :
    ∀ (pre rest : List KeyRecord),
    (∀ k ∈ pre, (∃ q, algorithms k.alg = some q) ∧
        ¬ (looseEqOptStr (p.header.get ("kid".data)) k.kid = true
            ∧ looseEqStr (p.header.get ("alg".data)) k.alg = true)) →
    verifyLoop c p nowMs (pre ++ rest) = verifyLoop c p nowMs rest := by
  intro pre
  induction pre with
  | nil => intro rest _; rfl
  | cons k pre' ih =>
    intro rest h
    obtain ⟨⟨q, hq⟩, hnm⟩ := h k (by simp)
    rw [List.cons_append, verifyLoop_skip c p nowMs k (pre' ++ rest) q hq hnm,
      ih rest (fun x hx => h x (by simp [hx]))]

/-- C4 (amended).  When every candidate before the first match is
registered and non-matching, a failed cryptographic check on the first
matching candidate raises `InvalidSignature` immediately with exactly
one cryptographic check performed (the matching candidate's); and when
the check succeeds (and the temporal checks pass), verification succeeds
using that candidate, again with exactly one cryptographic check — none
for earlier or later candidates.  (Without the registered-prefix proviso
an unregistered earlier candidate changes the error to
`UnknownAlgorithm`.) -/
theorem verify_first_match_single_crypto_check
    (c : SubtleCrypto) (text : Str) (nowMs : Int) (p : ParsedToken)
    (pre : List KeyRecord) (m : KeyRecord) (post : List KeyRecord) (params : AlgParams)
    (hp : parse text = .ok p)
    (hpre : ∀ k ∈ pre, (∃ q, algorithms k.alg = some q) ∧
        ¬ (looseEqOptStr (p.header.get ("kid".data)) k.kid = true
            ∧ looseEqStr (p.header.get ("alg".data)) k.alg = true))
    (halg : algorithms m.alg = some params)
    (hmk : looseEqOptStr (p.header.get ("kid".data)) m.kid = true)
    (hma : looseEqStr (p.header.get ("alg".data)) m.alg = true) :
    (c.verify params.signatureParams m.publicKey p.signature (textToBytes p.signed) = false →
        verifyTraced c (.many (pre ++ m :: post)) text nowMs
          = (.error .invalidSignature, [m.publicKey]))
    ∧ (c.verify params.signatureParams m.publicKey p.signature (textToBytes p.signed) = true →
        checkTemporal p.claims nowMs = .ok () →
        verifyTraced c (.many (pre ++ m :: post)) text nowMs
          = (.ok p.claims, [m.publicKey])) := by
  constructor
  · intro hval
    simp [verifyTraced, hp, normalizeKeys,
      verifyLoop_append_skip c p nowMs pre (m :: post) hpre,
      verifyLoop_invalid c p nowMs m post params halg hmk hma hval]
  · intro hval hct
    have hv := verifyLoop_valid c p nowMs m post params halg hmk hma hval
    simp [verifyTraced, hp, normalizeKeys,
      verifyLoop_append_skip c p nowMs pre (m :: post) hpre, hv, hct]

/-- C4 counterexample: with a key list whose first candidate has an
unregistered algorithm, a token whose only matching candidate would fail
the cryptographic check makes `verify` raise `UnknownAlgorithm`, not
`InvalidSignature` — falsifying the claim's "for every key list". -/
theorem verify_unknown_alg_preempts_invalid_signature :
    verifyTraced toyCryptoReject (.many [wKeyFoo, wKey]) wTokExp100 0
        = (.error (.unknownAlgorithm ("FOO".data)), [])
    ∧ toyCryptoReject.verify ⟨"ECDSA".data, some ("SHA-256".data), none⟩ 9 [0]
        (textToBytes ((wParsed wClaimsExp100).signed)) = false := ⟨rfl, rfl⟩

/-- C4 witness: a registered non-matching candidate before the match;
rejecting crypto gives `InvalidSignature` with only the matching
candidate's handle checked; accepting crypto succeeds likewise. -/
theorem verify_first_match_single_crypto_check_witness :
    verifyTraced toyCryptoReject (.many [wKeyOther, wKey, wKeyB]) wTokExp100 0
        = (.error .invalidSignature, [9])
    ∧ verifyTraced toyCrypto (.many [wKeyOther, wKey, wKeyB]) wTokExp100 0
        = (.ok wClaimsExp100, [9]) :=
  ⟨(verify_first_match_single_crypto_check toyCryptoReject wTokExp100 0
      (wParsed wClaimsExp100) [wKeyOther] wKey [wKeyB]
      ⟨⟨"ECDSA".data, none, some ("P-256".data)⟩, ⟨"ECDSA".data, some ("SHA-256".data), none⟩⟩
      rfl
      (by intro k hk
          simp at hk
          subst hk
          exact ⟨⟨_, rfl⟩, by decide⟩)
      rfl rfl rfl).1 rfl,
   (verify_first_match_single_crypto_check toyCrypto wTokExp100 0
      (wParsed wClaimsExp100) [wKeyOther] wKey [wKeyB]
      ⟨⟨"ECDSA".data, none, some ("P-256".data)⟩, ⟨"ECDSA".data, some ("SHA-256".data), none⟩⟩
      rfl
      (by intro k hk
          simp at hk
          subst hk
          exact ⟨⟨_, rfl⟩, by decide⟩)
      rfl rfl rfl).2 rfl rfl⟩

/-! ## C5: JWKS import placeholders -/

/-- Plain induction principle for `JList` (the mutual family's default
eliminator has multiple motives). -/
theorem JList.inductionJL {motive : JList → Prop} (hnil : motive .nil)
    (hcons : ∀ x xs, motive xs → motive (.cons x xs)) : ∀ l, motive l
  | .nil => hnil
  | .cons x xs => hcons x xs (JList.inductionJL hnil hcons xs)

/-- Plain induction principle for `JFields`. -/
theorem JFields.inductionJF {motive : JFields → Prop} (hnil : motive .nil)
    (hcons : ∀ k v fs, motive fs → motive (.cons k v fs)) : ∀ fs, motive fs
  | .nil => hnil
  | .cons k v fs => hcons k v fs (JFields.inductionJF hnil hcons fs)

/-- Shape of `importJWKS`'s entry map: one output element per input
entry, in order, with `none` exactly at the entries whose `alg` is
falsy. -/
theorem importJWKSEntries_spec (c : SubtleCrypto) :
    ∀ (entries : JList) (out : List (Option KeyRecord)),
    importJWKSEntries c entries = .ok out →
    out.length = entries.toList.length
    ∧ (∀ (idx : Nat) (e : Json), entries.toList[idx]? = some e →
        (out[idx]? = some none ↔ Json.truthyOpt (e.get ("alg".data)) = false)) := by
  intro entries
  induction entries using JList.inductionJL with
  | hnil =>
    intro out h
    simp only [importJWKSEntries, Except.ok.injEq] at h
    subst h
    exact ⟨rfl, fun idx e he => by simp [JList.toList] at he⟩
  | hcons e rest ih =>
    intro out h
    simp only [importJWKSEntries] at h
    by_cases ha : Json.truthyOpt (e.get ("alg".data))
    · rw [if_neg (not_not_intro ha)] at h
      cases hip : importPublic c (algKeyOf (e.get ("alg".data)))
          (jwkStrip e ["alg".data, "kid".data]) with
      | error err => rw [hip] at h; cases h
      | ok pub =>
        rw [hip] at h
        cases hrec : importJWKSEntries c rest with
        | error err => rw [hrec] at h; cases h
        | ok out' =>
          rw [hrec] at h
          simp only [Except.ok.injEq] at h
          subst h
          obtain ⟨hlen, hidx⟩ := ih out' hrec
          refine ⟨by simp [JList.toList, hlen], ?_⟩
          intro idx e' he'
          cases idx with
          | zero =>
            simp [JList.toList] at he'
            subst he'
            simp [ha]
          | succ n =>
            simp only [JList.toList, List.getElem?_cons_succ] at he'
            simpa using hidx n e' he'
    · rw [if_pos (by simpa using ha)] at h
      cases hrec : importJWKSEntries c rest with
      | error err => rw [hrec] at h; cases h
      | ok out' =>
        rw [hrec] at h
        simp only [Except.ok.injEq] at h
        subst h
        obtain ⟨hlen, hidx⟩ := ih out' hrec
        refine ⟨by simp [JList.toList, hlen], ?_⟩
        intro idx e' he'
        cases idx with
        | zero =>
          simp [JList.toList] at he'
          subst he'
          simp [ha]
        | succ n =>
          simp only [JList.toList, List.getElem?_cons_succ] at he'
          simpa using hidx n e' he'

/-- C5 (amended).  `importJWKS` returns one element per input entry, in
input order, with `null` (`none`) placeholders left in place for the
entries whose `alg` is falsy — skipped entries are not omitted; a JWK
Set with 3 entries of which one lacks `alg` yields a 3-element list
whose corresponding element is `null`. -/
theorem importJWKS_null_in_place (c : SubtleCrypto) (jwkSet : Json) (entries : JList)
    (out : List (Option KeyRecord))
    (hk : jwkSet.get ("keys".data) = some (.arr entries))
    (h : importJWKS c jwkSet = .ok out) :
    out.length = entries.toList.length
    ∧ (∀ (idx : Nat) (e : Json), entries.toList[idx]? = some e →
        (out[idx]? = some none ↔ Json.truthyOpt (e.get ("alg".data)) = false)) := by
  have h' : importJWKSEntries c entries = .ok out := by
    simpa [importJWKS, hk] using h
  exact importJWKSEntries_spec c entries out h'

/-- C5 counterexample: the 3-entry set with one entry lacking `alg`
yields a 3-element list containing a `null` placeholder, not the
claimed 2-element list with the skipped entry omitted. -/
theorem importJWKS_returns_null_placeholder :
    importJWKS toyCrypto wJwks
        = .ok [some ⟨"ES256".data, some ("a".data), none, 7⟩, none,
               some ⟨"RS256".data, some ("b".data), none, 7⟩]
    ∧ ([some (⟨"ES256".data, some ("a".data), none, 7⟩ : KeyRecord), none,
        some ⟨"RS256".data, some ("b".data), none, 7⟩] : List (Option KeyRecord)).length
        = 3 := ⟨rfl, rfl⟩

/-- C5 witness: the amended statement at the concrete 3-entry set. -/
theorem importJWKS_null_in_place_witness :
    ([some (⟨"ES256".data, some ("a".data), none, 7⟩ : KeyRecord), none,
      some ⟨"RS256".data, some ("b".data), none, 7⟩] : List (Option KeyRecord)).length
      = wEntries.toList.length
    ∧ (([some (⟨"ES256".data, some ("a".data), none, 7⟩ : KeyRecord), none,
        some ⟨"RS256".data, some ("b".data), none, 7⟩] : List (Option KeyRecord))[1]?
          = some none
        ↔ Json.truthyOpt (wEntryNoAlg.get ("alg".data)) = false) :=
  ⟨(importJWKS_null_in_place toyCrypto wJwks wEntries
      [some ⟨"ES256".data, some ("a".data), none, 7⟩, none,
        some ⟨"RS256".data, some ("b".data), none, 7⟩] rfl rfl).1,
   (importJWKS_null_in_place toyCrypto wJwks wEntries
      [some ⟨"ES256".data, some ("a".data), none, 7⟩, none,
        some ⟨"RS256".data, some ("b".data), none, 7⟩] rfl rfl).2 1 wEntryNoAlg rfl⟩

/-! ## C6: segment count -/

/-- C6 (code behaviour at the failing input).  An input with four
dot-separated segments does not raise `MalformedToken`: the destructuring
uses only the first three segments, so `parse` succeeds, silently
ignoring the fourth (`e30` decodes to `{}`, `AA` to the byte `0`). -/
theorem parse_four_segments_succeeds :
    (splitOnDot ("e30.e30.AA.x".data)).length = 4
    ∧ parse ("e30.e30.AA.x".data) = .ok ⟨.obj .nil, .obj .nil, [0], "e30.e30".data⟩ :=
  ⟨rfl, rfl⟩

/-! ## C7: well-known JWKS URL -/

/-- C7 (code behaviour).  `importHostJWKS` delegates to `importURLJWKS`
with the URL it builds — but that URL places the dot on the wrong side
of the slash: `https://{h}./well-known/jwks.json` (host `{h}.`, path
`/well-known/jwks.json`) instead of the conventional
`https://{h}/.well-known/jwks.json` the specification prescribes. -/
theorem importHostJWKS_url_bug :
    (∀ (c : SubtleCrypto) (fetchJson : Str → Except JwtError Json) (hostname : Str),
        importHostJWKS c fetchJson hostname
          = importURLJWKS c fetchJson (importHostJWKSUrl hostname))
    ∧ (∀ hostname : Str, importHostJWKSUrl hostname
        = "https://".data ++ hostname ++ "./well-known/jwks.json".data)
    ∧ importHostJWKSUrl ("example.com".data)
        = "https://example.com./well-known/jwks.json".data
    ∧ specWellKnownJwksUrl ("example.com".data)
        = "https://example.com/.well-known/jwks.json".data
    ∧ (importHostJWKSUrl ("example.com".data)
        == specWellKnownJwksUrl ("example.com".data)) = false :=
  ⟨fun _ _ _ => rfl, fun _ => rfl, by decide, by decide, by decide⟩

/-! ## C8: expiredFraction -/

/-- C8 (amended).  For a parsable token: a falsy `exp` yields `0`; a
truthy `exp` with falsy `iat` and no `createdAt` raises
`MissingTimeReference`; otherwise the result is
`(now − created) / (exp − issuedAt)` in epoch seconds, where `created`
is `createdAt` when supplied else `claims.iat`, and `issuedAt` is
`claims.iat` when truthy else `createdAt` (the original claim's
"`iat` if present" fails at `iat = 0`). -/
theorem expiredFraction_spec (jwt : Str) (createdAt : Option Int) (nowMs : Int)
    (p : ParsedToken) (hp : parse jwt = .ok p) :
    (Json.truthyOpt (p.claims.get ("exp".data)) = false →
        expiredFraction jwt createdAt nowMs = .ok 0)
    ∧ (Json.truthyOpt (p.claims.get ("exp".data)) = true →
        Json.truthyOpt (p.claims.get ("iat".data)) = false → createdAt = none →
        expiredFraction jwt createdAt nowMs = .error .missingTimeReference)
    ∧ (∀ e : Int, p.claims.get ("exp".data) = some (.num e) → e ≠ 0 →
        ¬ (Json.truthyOpt (p.claims.get ("iat".data)) = false ∧ createdAt = none) →
        expiredFraction jwt createdAt nowMs
          = .ok ((((nowMs : ℚ) / 1000) - createdQ createdAt (p.claims.get ("iat".data)))
              / ((e : ℚ) - issuedAtQ createdAt (p.claims.get ("iat".data))))) := by
  refine ⟨?_, ?_, ?_⟩
  · intro h1
    simp [expiredFraction, hp, h1]
  · intro h1 h2 h3
    simp [expiredFraction, hp, h1, h2, h3]
  · intro e he hne hnc
    have h1 : Json.truthyOpt (p.claims.get ("exp".data)) = true := by
      simp [he, Json.truthyOpt, Json.truthy, hne]
    have h2 : ¬ ((¬ Json.truthyOpt (p.claims.get ("iat".data))
        && createdAt.isNone) = true) := by
      by_cases hi : Json.truthyOpt (p.claims.get ("iat".data))
      · simp [hi]
      · cases createdAt with
        | none => exact absurd ⟨by simpa using hi, rfl⟩ hnc
        | some ms => simp [hi]
    simp only [expiredFraction, hp]
    rw [if_neg (not_not_intro h1), if_neg h2, he]
    rfl

/-- C8 counterexample: at claims `{iat: 0, exp: 100}` with
`createdAt = 10` s and `now = 50` s, the code computes
`(50 − 10) / (100 − 10)` (the `iat || createdAt` truthiness makes
`issuedAt` fall back to `createdAt` at `iat = 0`), while the claim's
"`issuedAt` = `claims.iat` if present" prescribes `(50 − 10) / (100 − 0)`
— different values. -/
theorem expiredFraction_iat_zero_counterexample :
    expiredFraction wTokIat0 (some 10000) 50000
      = .ok ((((50000 : Int) : ℚ) / 1000 - ((10000 : Int) : ℚ) / 1000)
          / (((100 : Int) : ℚ) - ((10000 : Int) : ℚ) / 1000))
    ∧ ((((50000 : Int) : ℚ) / 1000 - ((10000 : Int) : ℚ) / 1000)
          / (((100 : Int) : ℚ) - ((10000 : Int) : ℚ) / 1000))
        ≠ ((((50000 : Int) : ℚ) / 1000 - createdQ (some 10000) (some (.num 0)))
          / (((100 : Int) : ℚ) - numQ (some (.num 0)))) := by
  constructor
  · rfl
  · simp [createdQ, numQ]
    norm_num

/-- C8 witness: the amended formula at claims `{iat: 10, exp: 100}`,
no `createdAt`, `now = 40` s. -/
theorem expiredFraction_spec_witness :
    expiredFraction wTokIat10 none 40000
      = .ok ((((40000 : Int) : ℚ) / 1000
            - createdQ none ((wParsed wClaimsIat10).claims.get ("iat".data)))
          / (((100 : Int) : ℚ)
            - issuedAtQ none ((wParsed wClaimsIat10).claims.get ("iat".data)))) :=
  (expiredFraction_spec wTokIat10 none 40000 (wParsed wClaimsIat10) rfl).2.2
    100 rfl (by decide) (by decide)

/-! ## C9: importJWK -/

/-- Lookups are unchanged by stripping other field names. -/
theorem jwkFieldsStrip_lookup (names : List Str) (key : Str)
    (hkey : names.contains key = false) :
    ∀ fs : JFields, (jwkFieldsStrip names fs).lookupF key = fs.lookupF key := by
  have hkeymem : key ∉ names := by simpa using hkey
  refine JFields.inductionJF rfl ?_
  intro k v fs ih
  by_cases hk : k ∈ names
  · have hne : ¬ (k = key) := fun h => hkeymem (h ▸ hk)
    simp [jwkFieldsStrip, hk, JFields.lookupF, hne, ih]
  · by_cases hkk : k = key
    · subst hkk
      simp [jwkFieldsStrip, hk, JFields.lookupF]
    · simp [jwkFieldsStrip, hk, JFields.lookupF, hkk, ih]

/-- C9 (amended).  For a registry-known `alg`, `importJWK` returns one
record whose private handle exists exactly when the JWK's `d` field is
truthy (a present-but-empty `d` builds none), and whose public handle is
imported from the JWK with exactly `d`, `dp`, `dq`, `q`, `qi` removed —
`key_ops` and every other field survive the stripping. -/
theorem importJWK_private_iff_truthy_d
    (c : SubtleCrypto) (alg : Str) (kid : Option Str) (jwk : Json)
    (params : AlgParams) (halg : algorithms alg = some params) :
    ∃ rec : KeyRecord, importJWK c alg kid jwk = .ok [rec]
      ∧ rec.alg = alg ∧ rec.kid = kid
      ∧ rec.privateKey.isSome = Json.truthyOpt (jwk.get ("d".data))
      ∧ rec.publicKey = c.importKey ("jwk".data)
          (jwkStrip jwk ["d".data, "dp".data, "dq".data, "q".data, "qi".data])
          params.importKeyParams true ["verify".data]
      ∧ (∀ key : Str, ["d".data, "dp".data, "dq".data, "q".data, "qi".data].contains key
            = false →
          (jwkStrip jwk ["d".data, "dp".data, "dq".data, "q".data, "qi".data]).get key
            = jwk.get key) := by
  refine ⟨⟨alg, kid,
    (if Json.truthyOpt (jwk.get ("d".data)) then
      some (c.importKey ("jwk".data) jwk params.importKeyParams true ["sign".data])
    else none),
    c.importKey ("jwk".data)
      (jwkStrip jwk ["d".data, "dp".data, "dq".data, "q".data, "qi".data])
      params.importKeyParams true ["verify".data]⟩, ?_, rfl, rfl, ?_, rfl, ?_⟩
  · simp [importJWK, halg, importPublic]
  · by_cases hd : Json.truthyOpt (jwk.get ("d".data)) <;> simp [hd]
  · intro key hkey
    cases jwk with
    | obj fs => exact jwkFieldsStrip_lookup _ key hkey fs
    | null => rfl
    | bool b => rfl
    | num n => rfl
    | str t => rfl
    | arr xs => rfl

/-- C9 counterexample: a JWK with `d` present but empty (falsy) and a
`key_ops` list: `importJWK` builds no private handle although `d` is
contained, and the public-import copy still contains `key_ops`. -/
theorem importJWK_empty_d_keyops_counterexample :
    wJwkBad.get ("d".data) = some (.str [])
    ∧ importJWK toyCrypto ("ES256".data) none wJwkBad
        = .ok [⟨"ES256".data, none, none, 7⟩]
    ∧ (jwkStrip wJwkBad ["d".data, "dp".data, "dq".data, "q".data, "qi".data]).get
        ("key_ops".data) = some (.arr (.cons (.str ("sign".data)) .nil)) :=
  ⟨rfl, rfl, rfl⟩

/-- C9 witness: at a JWK with truthy `d` the record carries a private
handle, and the public handle comes from the stripped copy. -/
theorem importJWK_private_iff_truthy_d_witness :
    ∃ rec : KeyRecord, importJWK toyCrypto ("ES256".data) none wJwkGood = .ok [rec]
      ∧ rec.alg = "ES256".data ∧ rec.kid = none
      ∧ rec.privateKey.isSome = Json.truthyOpt (wJwkGood.get ("d".data))
      ∧ rec.publicKey = toyCrypto.importKey ("jwk".data)
          (jwkStrip wJwkGood ["d".data, "dp".data, "dq".data, "q".data, "qi".data])
          ⟨"ECDSA".data, none, some ("P-256".data)⟩ true ["verify".data]
      ∧ (∀ key : Str, ["d".data, "dp".data, "dq".data, "q".data, "qi".data].contains key
            = false →
          (jwkStrip wJwkGood ["d".data, "dp".data, "dq".data, "q".data, "qi".data]).get key
            = wJwkGood.get key) :=
  importJWK_private_iff_truthy_d toyCrypto ("ES256".data) none wJwkGood
    ⟨⟨"ECDSA".data, none, some ("P-256".data)⟩, ⟨"ECDSA".data, some ("SHA-256".data), none⟩⟩
    rfl

/-! ## C10: truthiness of temporal claims -/

/-- Every error of the candidate scan is `keyNotFound`,
`unknownAlgorithm`, `invalidSignature`, or an error of the temporal
checks. -/
theorem verifyLoop_error_cases (c : SubtleCrypto) (p : ParsedToken) (nowMs : Int) :
    ∀ (ks : List KeyRecord) (err : JwtError), (verifyLoop c p nowMs ks).1 = .error err →
    err = .keyNotFound ∨ (∃ a, err = .unknownAlgorithm a) ∨ err = .invalidSignature
    ∨ checkTemporal p.claims nowMs = .error err := by
  intro ks
  induction ks with
  | nil =>
    intro err h
    simp [verifyLoop] at h
    exact Or.inl h.symm
  | cons key rest ih =>
    intro err h
    cases halg : algorithms key.alg with
    | none =>
      rw [verifyLoop_unknown c p nowMs key rest halg] at h
      simp at h
      exact Or.inr (Or.inl ⟨key.alg, h.symm⟩)
    | some params =>
      by_cases hm : (looseEqOptStr (p.header.get ("kid".data)) key.kid = true
          ∧ looseEqStr (p.header.get ("alg".data)) key.alg = true)
      · by_cases hval : c.verify params.signatureParams key.publicKey p.signature
            (textToBytes p.signed) = true
        · rw [verifyLoop_valid c p nowMs key rest params halg hm.1 hm.2 hval] at h
          cases hct : checkTemporal p.claims nowMs with
          | error e2 =>
            rw [hct] at h
            simp at h
            exact Or.inr (Or.inr (Or.inr (congrArg Except.error h)))
          | ok u =>
            rw [hct] at h
            simp at h
        · have hval' : c.verify params.signatureParams key.publicKey p.signature
              (textToBytes p.signed) = false := Bool.eq_false_iff.mpr hval
          rw [verifyLoop_invalid c p nowMs key rest params halg hm.1 hm.2 hval'] at h
          simp at h
          exact Or.inr (Or.inr (Or.inl h.symm))
      · rw [verifyLoop_skip c p nowMs key rest params halg hm] at h
        exact ih err h

/-- With `exp = 0` the expiry branch is skipped by truthiness, so the
temporal checks can never raise `expired`. -/
theorem checkTemporal_exp_zero (claims : Json) (nowMs : Int)
    (h : claims.get ("exp".data) = some (.num 0)) :
    checkTemporal claims nowMs ≠ .error .expired := by
  cases hi : claims.get ("iat".data) with
  | none => simp [checkTemporal, h, hi, Json.truthyOpt, Json.truthy]
  | some j =>
    cases j with
    | num i =>
      by_cases hi0 : i = 0
      · simp [checkTemporal, h, hi, Json.truthyOpt, Json.truthy, hi0]
      · by_cases hgt : 1000 * i > nowMs <;>
          simp [checkTemporal, h, hi, Json.truthyOpt, Json.truthy, Json.asNum, hi0, hgt]
    | null => simp [checkTemporal, h, hi, Json.truthyOpt, Json.truthy]
    | bool b => cases b <;> simp [checkTemporal, h, hi, Json.truthyOpt, Json.truthy, Json.asNum]
    | str t => simp [checkTemporal, h, hi, Json.truthyOpt, Json.truthy, Json.asNum]
    | arr xs => simp [checkTemporal, h, hi, Json.truthyOpt, Json.truthy, Json.asNum]
    | obj fs => simp [checkTemporal, h, hi, Json.truthyOpt, Json.truthy, Json.asNum]

/-- With `iat = 0` the not-yet-valid branch is skipped by truthiness, so
the temporal checks can never raise `notYetValid`. -/
theorem checkTemporal_iat_zero (claims : Json) (nowMs : Int)
    (h : claims.get ("iat".data) = some (.num 0)) :
    checkTemporal claims nowMs ≠ .error .notYetValid := by
  cases he : claims.get ("exp".data) with
  | none => simp [checkTemporal, h, he, Json.truthyOpt, Json.truthy]
  | some j =>
    cases j with
    | num e =>
      by_cases he0 : e = 0
      · simp [checkTemporal, h, he, Json.truthyOpt, Json.truthy, he0]
      · by_cases hlt : 1000 * e < nowMs <;>
          simp [checkTemporal, h, he, Json.truthyOpt, Json.truthy, Json.asNum, he0, hlt]
    | null => simp [checkTemporal, h, he, Json.truthyOpt, Json.truthy]
    | bool b => cases b <;> simp [checkTemporal, h, he, Json.truthyOpt, Json.truthy, Json.asNum]
    | str t => simp [checkTemporal, h, he, Json.truthyOpt, Json.truthy, Json.asNum]
    | arr xs => simp [checkTemporal, h, he, Json.truthyOpt, Json.truthy, Json.asNum]
    | obj fs => simp [checkTemporal, h, he, Json.truthyOpt, Json.truthy, Json.asNum]

/-- C10.  `verify` tests the temporal claims by truthiness, not
presence: a token whose claims contain `exp = 0` can never fail with
`Expired`, and one whose claims contain `iat = 0` can never fail with
`NotYetValid`, for every key argument and verification time. -/
theorem verify_zero_exp_iat_skipped
    (c : SubtleCrypto) (keys : Keys) (text : Str) (nowMs : Int) (p : ParsedToken)
    (hp : parse text = .ok p) :
    (p.claims.get ("exp".data) = some (.num 0) →
        verify c keys text nowMs ≠ .error .expired)
    ∧ (p.claims.get ("iat".data) = some (.num 0) →
        verify c keys text nowMs ≠ .error .notYetValid) := by
  have hv : ∀ err, verify c keys text nowMs = .error err →
      (verifyLoop c p nowMs (normalizeKeys keys)).1 = .error err := by
    intro err h
    simpa [verify, verifyTraced, hp] using h
  constructor
  · intro hexp h
    rcases verifyLoop_error_cases c p nowMs (normalizeKeys keys) _ (hv _ h)
      with h1 | ⟨a, h1⟩ | h1 | h1
    · cases h1
    · cases h1
    · cases h1
    · exact checkTemporal_exp_zero p.claims nowMs hexp h1
  · intro hiat h
    rcases verifyLoop_error_cases c p nowMs (normalizeKeys keys) _ (hv _ h)
      with h1 | ⟨a, h1⟩ | h1 | h1
    · cases h1
    · cases h1
    · cases h1
    · exact checkTemporal_iat_zero p.claims nowMs hiat h1

/-- C10 witness: the `{exp: 0, iat: 0}` token never fails `Expired`
even far in the future, nor `NotYetValid` far in the past. -/
theorem verify_zero_exp_iat_skipped_witness :
    verify toyCrypto (.one wKey) wTokZero 999999999 ≠ .error .expired
    ∧ verify toyCrypto (.one wKey) wTokZero (-999999999) ≠ .error .notYetValid :=
  ⟨(verify_zero_exp_iat_skipped toyCrypto (.one wKey) wTokZero 999999999
      (wParsed wClaimsZero) rfl).1 rfl,
   (verify_zero_exp_iat_skipped toyCrypto (.one wKey) wTokZero (-999999999)
      (wParsed wClaimsZero) rfl).2 rfl⟩
